import Mathlib

/-!
Verification of the Archive Alchemist ZIP/TAR codec layer.

Byte strings are shallowly embedded as `List Nat` (each element a byte value
below 256 wherever the modelled Python code produced it).  Python slicing
`data[a:b]` becomes `(data.drop a).take (b - a)`, which has the same
clamping behaviour; `int.from_bytes(_, 'little')` becomes `fromBytesLE`;
`n.to_bytes(k, 'little')` becomes `toBytesLE n k` (the theorems carry the
in-range hypotheses under which Python's `to_bytes` does not raise).
-/

namespace ArchiveAlchemist

/-- Byte sequences, modelled as lists of naturals. -/
abbrev Bytes := List Nat

/-- `int.from_bytes(bs, byteorder='little')`. -/
def fromBytesLE : Bytes → Nat
  | [] => 0
  | b :: bs => b + 256 * fromBytesLE bs

/-- `n.to_bytes(k, byteorder='little')` (truncating; theorems keep `n` in range). -/
def toBytesLE (n : Nat) : Nat → Bytes
  | 0 => []
  | k + 1 => n % 256 :: toBytesLE (n / 256) k

/-- `int.from_bytes(data[off:off+2], byteorder='little')`. -/
def readU16 (data : Bytes) (off : Nat) : Nat :=
  fromBytesLE ((data.drop off).take 2)

/-- `int.from_bytes(data[off:off+4], byteorder='little')`. -/
def readU32 (data : Bytes) (off : Nat) : Nat :=
  fromBytesLE ((data.drop off).take 4)

@[simp] theorem toBytesLE_length (n k : Nat) : (toBytesLE n k).length = k := by
  induction k generalizing n with
  | zero => rfl
  | succ k ih => simp [toBytesLE, ih]

theorem fromBytesLE_toBytesLE (n k : Nat) :
    fromBytesLE (toBytesLE n k) = n % 2 ^ (8 * k) := by
  induction k generalizing n with
  | zero => simp [toBytesLE, fromBytesLE, Nat.mod_one]
  | succ k ih =>
    have h : (2 : Nat) ^ (8 * (k + 1)) = 256 * 2 ^ (8 * k) := by
      rw [Nat.mul_add, pow_add]; norm_num [Nat.mul_comm]
    rw [toBytesLE, fromBytesLE, ih, h, Nat.mod_mul]

theorem fromBytesLE_toBytesLE_of_lt {n : Nat} (k : Nat) (h : n < 2 ^ (8 * k)) :
    fromBytesLE (toBytesLE n k) = n := by
  rw [fromBytesLE_toBytesLE, Nat.mod_eq_of_lt h]

theorem toBytesLE_lt (n k : Nat) : ∀ b ∈ toBytesLE n k, b < 256 := by
  induction k generalizing n with
  | zero => simp [toBytesLE]
  | succ k ih =>
    intro b hb
    simp only [toBytesLE, List.mem_cons] at hb
    rcases hb with h | h
    · subst h; exact Nat.mod_lt _ (by norm_num)
    · exact ih _ _ h

/-! Slice toolkit: reading at exact field boundaries of an append. -/

theorem drop_append_exact (A X : Bytes) : (A ++ X).drop A.length = X :=
  List.drop_left A X

theorem drop_append_add (A X : Bytes) (k : Nat) :
    (A ++ X).drop (A.length + k) = X.drop k := by
  rw [List.drop_append_eq_append_drop, List.drop_eq_nil_of_le (by omega),
    Nat.add_sub_cancel_left, List.nil_append]

theorem drop_append_of_len (A X : Bytes) (k m : Nat) (h : k = A.length + m) :
    (A ++ X).drop k = X.drop m := by
  subst h; exact drop_append_add A X m

theorem take_append_exact (A X : Bytes) (w : Nat) (h : A.length = w) :
    (A ++ X).take w = A :=
  List.take_left' h

/-- Reading a whole field that sits at offset `k` of `A ++ (mid ++ B)`. -/
theorem slice_append (A mid B : Bytes) (k w : Nat) (hk : k = A.length)
    (hw : mid.length = w) :
    ((A ++ (mid ++ B)).drop k).take w = mid := by
  subst hk
  rw [drop_append_exact, take_append_exact _ _ _ hw]

/-- A slice that stays inside the left part of an append ignores the right part. -/
theorem slice_inside_left (A B : Bytes) (k w : Nat) (h : k + w ≤ A.length) :
    ((A ++ B).drop k).take w = (A.drop k).take w := by
  rw [List.drop_append_eq_append_drop, List.take_append_eq_append_take]
  have h1 : w ≤ (A.drop k).length := by simp; omega
  have h2 : w - (A.drop k).length = 0 := by omega
  rw [h2]
  simp

theorem readU16_append_add (A X : Bytes) (k : Nat) :
    readU16 (A ++ X) (A.length + k) = readU16 X k := by
  unfold readU16; rw [drop_append_add]

theorem readU32_append_add (A X : Bytes) (k : Nat) :
    readU32 (A ++ X) (A.length + k) = readU32 X k := by
  unfold readU32; rw [drop_append_add]

theorem readU16_inside_left (A B : Bytes) (k : Nat) (h : k + 2 ≤ A.length) :
    readU16 (A ++ B) k = readU16 A k := by
  unfold readU16; rw [slice_inside_left _ _ _ _ h]

theorem readU32_inside_left (A B : Bytes) (k : Nat) (h : k + 4 ≤ A.length) :
    readU32 (A ++ B) k = readU32 A k := by
  unfold readU32; rw [slice_inside_left _ _ _ _ h]

theorem slice_append_inside (A B : Bytes) (k w : Nat) (h : k + w ≤ A.length) :
    ((A ++ B).drop k).take w = (A.drop k).take w :=
  slice_inside_left A B k w h

/-! ## ZIP record signatures and the polyglot rewriter
(`src/handlers/zip_handler.py`, `polyglot`). -/

/-- `b'PK\x05\x06'`, the End-of-Central-Directory signature. -/
def eocdSig : Bytes := [0x50, 0x4B, 0x05, 0x06]

/-- `b'PK\x01\x02'`, the Central-Directory-Header signature. -/
def cdhSig : Bytes := [0x50, 0x4B, 0x01, 0x02]

/-- `data[off:off+len(pat)] == pat` (a short slice near the end never matches,
exactly as in Python). -/
def sliceIs (data : Bytes) (off : Nat) (pat : Bytes) : Bool :=
  decide ((data.drop off).take pat.length = pat)

/-- The EOCD search loop `for i in range(len(zip_data) - 22, 0, -1)`: positions
`i, i-1, ..., 1` are examined, position `0` is NOT. -/
def findEocdAux (data : Bytes) : Nat → Option Nat
  | 0 => none
  | i + 1 => if sliceIs data (i + 1) eocdSig then some (i + 1) else findEocdAux data i

/-- EOCD location in `polyglot` (zip_handler.py lines 1296-1300). -/
def findEocd (data : Bytes) : Option Nat :=
  findEocdAux data (data.length - 22)

/-- The central-directory walk of `polyglot` (lines 1318-1345): at each CDH
signature the 4-byte LFH offset at bytes 42..46 is replaced by
`old_offset + adjustment` and the record is otherwise re-emitted verbatim;
a non-signature byte is copied and the position advances by 1.
`none` models the uncaught `OverflowError` of `to_bytes(4)` when a patched
offset no longer fits in 32 bits (the command aborts, nothing is written). -/
def processCd (adjustment : Nat) : Bytes → Option Bytes
  | [] => some []
  | b :: rest =>
    if sliceIs (b :: rest) 0 cdhSig then
      let filenameLen := readU16 (b :: rest) 28
      let extraLen := readU16 (b :: rest) 30
      let commentLen := readU16 (b :: rest) 32
      let oldOffset := readU32 (b :: rest) 42
      if oldOffset + adjustment < 2 ^ 32 then
        match processCd adjustment
            ((b :: rest).drop (46 + (filenameLen + extraLen + commentLen))) with
        | some out =>
          some ((b :: rest).take 42 ++ toBytesLE (oldOffset + adjustment) 4
            ++ ((b :: rest).drop 46).take (filenameLen + extraLen + commentLen) ++ out)
        | none => none
      else none
    else
      match processCd adjustment rest with
      | some out => some (b :: out)
      | none => none
termination_by l => l.length
decreasing_by
  all_goals simp only [List.length_drop, List.length_cons]; omega

/-- `polyglot` (zip_handler.py lines 1288-1355) on in-memory bytes: locate the
EOCD, read `cd_offset` (EOCD bytes 16..20), emit
`content ++ zip[0:cd_offset] ++ patched_cd ++ patched_eocd`.
`none` models the error paths: EOCD not found, or offset overflow. -/
def polyglot (zipData contentBytes : Bytes) : Option Bytes :=
  match findEocd zipData with
  | none => none
  | some eocdOffset =>
    let adjustment := contentBytes.length
    let cdOffset := readU32 zipData (eocdOffset + 16)
    match processCd adjustment ((zipData.drop cdOffset).take (eocdOffset - cdOffset)) with
    | none => none
    | some patchedCd =>
      if cdOffset + adjustment < 2 ^ 32 then
        some (contentBytes ++ zipData.take cdOffset ++ patchedCd
          ++ (zipData.drop eocdOffset).take 16
          ++ toBytesLE (cdOffset + adjustment) 4
          ++ zipData.drop (eocdOffset + 20))
      else none

/-- The 22-byte archive `zipfile.ZipFile(path, 'w')` writes for an empty ZIP:
an EOCD record at offset 0 with all counts and offsets zero.  `polyglot`
creates exactly this file when the target does not exist yet. -/
def emptyZipBytes : Bytes := eocdSig ++ List.replicate 18 0

/-! ### Structural description of a well-formed central directory.
A `CdhRecord` lists the fields of one 46+var byte CDH exactly in wire order
(spec section 6); `CdhRecord.ser` re-serialises it. -/

structure CdhRecord where
  /-- bytes 4..20: version made by/needed, flags, method, time, date, crc32 -/
  head16 : Bytes
  /-- bytes 20..24 -/
  csize : Nat
  /-- bytes 24..28: uncompressed size -/
  usize4 : Bytes
  /-- bytes 34..38: disk number start, internal attributes -/
  disk4 : Bytes
  /-- bytes 38..42 -/
  extAttr : Nat
  /-- bytes 42..46 -/
  lfhOffset : Nat
  name : Bytes
  extra : Bytes
  comment : Bytes

def CdhRecord.wf (r : CdhRecord) : Prop :=
  r.head16.length = 16 ∧ r.usize4.length = 4 ∧ r.disk4.length = 4 ∧
  r.csize < 2 ^ 32 ∧ r.extAttr < 2 ^ 32 ∧ r.lfhOffset < 2 ^ 32 ∧
  r.name.length < 2 ^ 16 ∧ r.extra.length < 2 ^ 16 ∧ r.comment.length < 2 ^ 16

instance (r : CdhRecord) : Decidable r.wf := by unfold CdhRecord.wf; infer_instance

def CdhRecord.ser (r : CdhRecord) : Bytes :=
  cdhSig ++ r.head16 ++ toBytesLE r.csize 4 ++ r.usize4
    ++ toBytesLE r.name.length 2 ++ toBytesLE r.extra.length 2
    ++ toBytesLE r.comment.length 2 ++ r.disk4 ++ toBytesLE r.extAttr 4
    ++ toBytesLE r.lfhOffset 4 ++ r.name ++ r.extra ++ r.comment

/-- The offset patching `polyglot` is supposed to perform on one CDH. -/
def CdhRecord.shift (r : CdhRecord) (adj : Nat) : CdhRecord :=
  { r with lfhOffset := r.lfhOffset + adj }

/-- Concatenated serialisation of a central directory. -/
def serCd (rs : List CdhRecord) : Bytes := (rs.map CdhRecord.ser).flatten

/-- Structural description of an EOCD record, in wire order. -/
structure EocdRecord where
  /-- bytes 4..16: disk numbers, entry counts, cd size -/
  mid12 : Bytes
  /-- bytes 16..20 -/
  cdOffset : Nat
  /-- bytes 20..: comment length field and comment -/
  tail : Bytes

def EocdRecord.wf (e : EocdRecord) : Prop :=
  e.mid12.length = 12 ∧ 2 ≤ e.tail.length ∧ e.cdOffset < 2 ^ 32

instance (e : EocdRecord) : Decidable e.wf := by unfold EocdRecord.wf; infer_instance

def EocdRecord.ser (e : EocdRecord) : Bytes :=
  eocdSig ++ e.mid12 ++ toBytesLE e.cdOffset 4 ++ e.tail

/-- One entry as compared by the round-trip property: name, mode, payload. -/
structure ParsedEntry where
  name : Bytes
  mode : Nat
  payload : Bytes
deriving DecidableEq

/-- Modelled from the spec: the cross-check parser of property 3 ("parse(...)
.entries compared on name, mode, payload") is the stdlib `zipfile` reader the
tool's `list`/`read` commands use, which is not part of src/.  Following the
wire format of spec section 6, the central directory rooted at the EOCD is
walked record by record; each CDH yields its filename bytes, the Unix mode
`external_attr >> 16`, and the `compressed_size` payload bytes found at the
referenced LFH's data offset (`lfh_offset + 30 + name_len + extra_len`). -/
def collectEntries (whole : Bytes) : Bytes → List ParsedEntry
  | [] => []
  | b :: rest =>
    if sliceIs (b :: rest) 0 cdhSig then
      let filenameLen := readU16 (b :: rest) 28
      let extraLen := readU16 (b :: rest) 30
      let commentLen := readU16 (b :: rest) 32
      let csize := readU32 (b :: rest) 20
      let extAttr := readU32 (b :: rest) 38
      let lfhOff := readU32 (b :: rest) 42
      let dataOff := lfhOff + 30 + readU16 whole (lfhOff + 26) + readU16 whole (lfhOff + 28)
      { name := ((b :: rest).drop 46).take filenameLen,
        mode := extAttr / 2 ^ 16,
        payload := (whole.drop dataOff).take csize }
        :: collectEntries whole ((b :: rest).drop (46 + (filenameLen + extraLen + commentLen)))
    else
      collectEntries whole rest
termination_by l => l.length
decreasing_by
  all_goals simp only [List.length_drop, List.length_cons]; omega

/-- Modelled from the spec (see `collectEntries`): locate the EOCD the same
way the tool does, read `cd_offset`, and collect the entries of the central
directory `data[cd_offset:eocd_offset]`. -/
def parseEntries (data : Bytes) : Option (List ParsedEntry) :=
  match findEocd data with
  | none => none
  | some eocdOffset =>
    let cdOffset := readU32 data (eocdOffset + 16)
    some (collectEntries data ((data.drop cdOffset).take (eocdOffset - cdOffset)))

/-- The entry a well-formed CDH record describes, with LFH name/extra lengths
and payload read from `base` (the part of the archive before the CD). -/
def CdhRecord.entryIn (base : Bytes) (r : CdhRecord) : ParsedEntry :=
  { name := r.name,
    mode := r.extAttr / 2 ^ 16,
    payload := (base.drop (r.lfhOffset + 30 + readU16 base (r.lfhOffset + 26)
      + readU16 base (r.lfhOffset + 28))).take r.csize }

/-- The LFH referenced by `r`, together with its `csize` payload, lies entirely
inside `base`; this is what lets the payload survive the prepend unchanged. -/
def CdhRecord.lfhInside (base : Bytes) (r : CdhRecord) : Prop :=
  r.lfhOffset + 30 ≤ base.length ∧
  r.lfhOffset + 30 + readU16 base (r.lfhOffset + 26) + readU16 base (r.lfhOffset + 28)
    + r.csize ≤ base.length

instance (base : Bytes) (r : CdhRecord) : Decidable (r.lfhInside base) := by
  unfold CdhRecord.lfhInside; infer_instance

/-! ### Reading the fields of a serialised CDH back. -/

/-- The first 42 bytes of a serialised CDH: everything before the LFH offset.
Untouched by `CdhRecord.shift`. -/
def CdhRecord.front42 (r : CdhRecord) : Bytes :=
  cdhSig ++ r.head16 ++ toBytesLE r.csize 4 ++ r.usize4
    ++ toBytesLE r.name.length 2 ++ toBytesLE r.extra.length 2
    ++ toBytesLE r.comment.length 2 ++ r.disk4 ++ toBytesLE r.extAttr 4

theorem CdhRecord.ser_decomp (r : CdhRecord) :
    r.ser = r.front42 ++ (toBytesLE r.lfhOffset 4 ++ (r.name ++ (r.extra ++ r.comment))) := by
  simp [CdhRecord.ser, CdhRecord.front42, List.append_assoc]

theorem CdhRecord.front42_length {r : CdhRecord} (h : r.wf) : r.front42.length = 42 := by
  obtain ⟨h1, h2, h3, -⟩ := h
  simp [CdhRecord.front42, cdhSig, h1, h2, h3]

theorem CdhRecord.front42_shift (r : CdhRecord) (adj : Nat) :
    (r.shift adj).front42 = r.front42 := rfl

theorem CdhRecord.ser_length {r : CdhRecord} (h : r.wf) :
    r.ser.length = 46 + (r.name.length + (r.extra.length + r.comment.length)) := by
  rw [CdhRecord.ser_decomp]
  simp [CdhRecord.front42_length h]
  omega

/-- Reading a 2-byte field that starts right at the end of prefix `P`. -/
theorem readU16_at_field (P Q : Bytes) (v k : Nat) (hP : P.length = k) (hv : v < 2 ^ 16) :
    readU16 (P ++ (toBytesLE v 2 ++ Q)) k = v := by
  unfold readU16
  rw [← hP, drop_append_exact, take_append_exact _ _ _ (toBytesLE_length v 2)]
  exact fromBytesLE_toBytesLE_of_lt 2 (by exact_mod_cast hv)

/-- Reading a 4-byte field that starts right at the end of prefix `P`. -/
theorem readU32_at_field (P Q : Bytes) (v k : Nat) (hP : P.length = k) (hv : v < 2 ^ 32) :
    readU32 (P ++ (toBytesLE v 4 ++ Q)) k = v := by
  unfold readU32
  rw [← hP, drop_append_exact, take_append_exact _ _ _ (toBytesLE_length v 4)]
  exact fromBytesLE_toBytesLE_of_lt 4 (by exact_mod_cast hv)

section CdhFieldReads

variable {r : CdhRecord} (rest : Bytes)

theorem cdh_sliceIs : sliceIs (r.ser ++ rest) 0 cdhSig = true := by
  have : (r.ser ++ rest).take 4 = cdhSig := by
    rw [CdhRecord.ser_decomp, CdhRecord.front42, List.append_assoc, List.append_assoc,
      List.append_assoc, List.append_assoc, List.append_assoc, List.append_assoc,
      List.append_assoc, List.append_assoc, List.append_assoc]
    exact take_append_exact _ _ _ rfl
  simp only [sliceIs, List.drop_zero]
  exact decide_eq_true this

theorem cdh_read_csize (hw : r.wf) : readU32 (r.ser ++ rest) 20 = r.csize := by
  have h : r.ser ++ rest = (cdhSig ++ r.head16)
      ++ (toBytesLE r.csize 4 ++ (r.usize4 ++ toBytesLE r.name.length 2
        ++ toBytesLE r.extra.length 2 ++ toBytesLE r.comment.length 2 ++ r.disk4
        ++ toBytesLE r.extAttr 4 ++ toBytesLE r.lfhOffset 4 ++ r.name ++ r.extra
        ++ r.comment ++ rest)) := by
    simp [CdhRecord.ser, List.append_assoc]
  rw [h, readU32_at_field _ _ _ _ (by simp [cdhSig, hw.1]) hw.2.2.2.1]

theorem cdh_read_nameLen (hw : r.wf) : readU16 (r.ser ++ rest) 28 = r.name.length := by
  have h : r.ser ++ rest = (cdhSig ++ r.head16 ++ toBytesLE r.csize 4 ++ r.usize4)
      ++ (toBytesLE r.name.length 2 ++ (toBytesLE r.extra.length 2
        ++ toBytesLE r.comment.length 2 ++ r.disk4
        ++ toBytesLE r.extAttr 4 ++ toBytesLE r.lfhOffset 4 ++ r.name ++ r.extra
        ++ r.comment ++ rest)) := by
    simp [CdhRecord.ser, List.append_assoc]
  rw [h, readU16_at_field _ _ _ _ (by simp [cdhSig, hw.1, hw.2.1]) hw.2.2.2.2.2.2.1]

theorem cdh_read_extraLen (hw : r.wf) : readU16 (r.ser ++ rest) 30 = r.extra.length := by
  have h : r.ser ++ rest = (cdhSig ++ r.head16 ++ toBytesLE r.csize 4 ++ r.usize4
        ++ toBytesLE r.name.length 2)
      ++ (toBytesLE r.extra.length 2 ++ (toBytesLE r.comment.length 2 ++ r.disk4
        ++ toBytesLE r.extAttr 4 ++ toBytesLE r.lfhOffset 4 ++ r.name ++ r.extra
        ++ r.comment ++ rest)) := by
    simp [CdhRecord.ser, List.append_assoc]
  rw [h, readU16_at_field _ _ _ _ (by simp [cdhSig, hw.1, hw.2.1]) hw.2.2.2.2.2.2.2.1]

theorem cdh_read_commentLen (hw : r.wf) : readU16 (r.ser ++ rest) 32 = r.comment.length := by
  have h : r.ser ++ rest = (cdhSig ++ r.head16 ++ toBytesLE r.csize 4 ++ r.usize4
        ++ toBytesLE r.name.length 2 ++ toBytesLE r.extra.length 2)
      ++ (toBytesLE r.comment.length 2 ++ (r.disk4
        ++ toBytesLE r.extAttr 4 ++ toBytesLE r.lfhOffset 4 ++ r.name ++ r.extra
        ++ r.comment ++ rest)) := by
    simp [CdhRecord.ser, List.append_assoc]
  rw [h, readU16_at_field _ _ _ _ (by simp [cdhSig, hw.1, hw.2.1]) hw.2.2.2.2.2.2.2.2]

theorem cdh_read_extAttr (hw : r.wf) : readU32 (r.ser ++ rest) 38 = r.extAttr := by
  have h : r.ser ++ rest = (cdhSig ++ r.head16 ++ toBytesLE r.csize 4 ++ r.usize4
        ++ toBytesLE r.name.length 2 ++ toBytesLE r.extra.length 2
        ++ toBytesLE r.comment.length 2 ++ r.disk4)
      ++ (toBytesLE r.extAttr 4 ++ (toBytesLE r.lfhOffset 4 ++ r.name ++ r.extra
        ++ r.comment ++ rest)) := by
    simp [CdhRecord.ser, List.append_assoc]
  rw [h, readU32_at_field _ _ _ _ (by simp [cdhSig, hw.1, hw.2.1, hw.2.2.1]) hw.2.2.2.2.1]

theorem cdh_read_lfhOffset (hw : r.wf) : readU32 (r.ser ++ rest) 42 = r.lfhOffset := by
  have h : r.ser ++ rest = r.front42
      ++ (toBytesLE r.lfhOffset 4 ++ (r.name ++ r.extra ++ r.comment ++ rest)) := by
    simp [CdhRecord.ser, CdhRecord.front42, List.append_assoc]
  rw [h, readU32_at_field _ _ _ _ (CdhRecord.front42_length hw) hw.2.2.2.2.2.1]

theorem cdh_take_42 (hw : r.wf) : (r.ser ++ rest).take 42 = r.front42 := by
  rw [CdhRecord.ser_decomp, List.append_assoc]
  exact take_append_exact _ _ _ (CdhRecord.front42_length hw)

theorem cdh_var_slice (hw : r.wf) :
    ((r.ser ++ rest).drop 46).take (r.name.length + r.extra.length + r.comment.length)
      = r.name ++ (r.extra ++ r.comment) := by
  have h : r.ser ++ rest = (r.front42 ++ toBytesLE r.lfhOffset 4)
      ++ ((r.name ++ (r.extra ++ r.comment)) ++ rest) := by
    simp [CdhRecord.ser, CdhRecord.front42, List.append_assoc]
  rw [h]
  exact slice_append _ _ _ _ _ (by simp [CdhRecord.front42_length hw]) (by simp; omega)

theorem cdh_drop_record (hw : r.wf) :
    (r.ser ++ rest).drop (46 + (r.name.length + r.extra.length + r.comment.length))
      = rest := by
  rw [drop_append_of_len r.ser rest _ 0 (by rw [CdhRecord.ser_length hw]; omega)]
  exact List.drop_zero rest

theorem cdh_name_slice (hw : r.wf) :
    ((r.ser ++ rest).drop 46).take r.name.length = r.name := by
  have h : r.ser ++ rest = (r.front42 ++ toBytesLE r.lfhOffset 4)
      ++ (r.name ++ (r.extra ++ r.comment ++ rest)) := by
    simp [CdhRecord.ser, CdhRecord.front42, List.append_assoc]
  rw [h]
  exact slice_append _ _ _ _ _ (by simp [CdhRecord.front42_length hw]) rfl

end CdhFieldReads

/-! ### The CD walks over a serialised central directory. -/

theorem processCd_nil (adj : Nat) : processCd adj [] = some [] := by
  rw [processCd]

theorem processCd_ser_step (adj : Nat) (r : CdhRecord) (rest : Bytes) (hw : r.wf)
    (hfit : r.lfhOffset + adj < 2 ^ 32) :
    processCd adj (r.ser ++ rest)
      = match processCd adj rest with
        | some out => some ((r.shift adj).ser ++ out)
        | none => none := by
  cases hsr : r.ser ++ rest with
  | nil =>
    exfalso
    have := congrArg List.length hsr
    rw [List.length_append, CdhRecord.ser_length hw] at this
    simp at this
  | cons b S =>
    rw [processCd, ← hsr]
    rw [cdh_sliceIs]
    simp only [if_true]
    rw [cdh_read_nameLen rest hw, cdh_read_extraLen rest hw, cdh_read_commentLen rest hw,
      cdh_read_lfhOffset rest hw]
    rw [if_pos hfit, cdh_drop_record rest hw, cdh_take_42 rest hw, cdh_var_slice rest hw]
    cases processCd adj rest with
    | none => rfl
    | some out =>
      simp only []
      congr 1
      simp [CdhRecord.ser, CdhRecord.shift, CdhRecord.front42, List.append_assoc]

theorem processCd_serCd (adj : Nat) (rs : List CdhRecord)
    (hwf : ∀ r ∈ rs, r.wf) (hfit : ∀ r ∈ rs, r.lfhOffset + adj < 2 ^ 32) :
    processCd adj (serCd rs) = some (serCd (rs.map (CdhRecord.shift · adj))) := by
  induction rs with
  | nil => simpa [serCd] using processCd_nil adj
  | cons r rs ih =>
    rw [show serCd (r :: rs) = r.ser ++ serCd rs by simp [serCd]]
    rw [processCd_ser_step adj r (serCd rs) (hwf r (by simp)) (hfit r (by simp))]
    rw [ih (fun x hx => hwf x (by simp [hx])) (fun x hx => hfit x (by simp [hx]))]
    simp [serCd]

theorem collectEntries_nil (whole : Bytes) : collectEntries whole [] = [] := by
  rw [collectEntries]

theorem collectEntries_ser_step (whole : Bytes) (r : CdhRecord) (rest : Bytes) (hw : r.wf) :
    collectEntries whole (r.ser ++ rest)
      = r.entryIn whole :: collectEntries whole rest := by
  cases hsr : r.ser ++ rest with
  | nil =>
    exfalso
    have := congrArg List.length hsr
    rw [List.length_append, CdhRecord.ser_length hw] at this
    simp at this
  | cons b S =>
    rw [collectEntries, ← hsr]
    rw [cdh_sliceIs]
    simp only [if_true]
    rw [cdh_read_nameLen rest hw, cdh_read_extraLen rest hw, cdh_read_commentLen rest hw,
      cdh_read_lfhOffset rest hw, cdh_read_csize rest hw, cdh_read_extAttr rest hw,
      cdh_drop_record rest hw, cdh_name_slice rest hw]
    rfl

theorem collectEntries_serCd (whole : Bytes) (rs : List CdhRecord)
    (hwf : ∀ r ∈ rs, r.wf) :
    collectEntries whole (serCd rs) = rs.map (CdhRecord.entryIn whole) := by
  induction rs with
  | nil => simpa [serCd] using collectEntries_nil whole
  | cons r rs ih =>
    rw [show serCd (r :: rs) = r.ser ++ serCd rs by simp [serCd]]
    rw [collectEntries_ser_step whole r (serCd rs) (hwf r (by simp))]
    rw [ih (fun x hx => hwf x (by simp [hx]))]
    simp

/-- Prepending `P` and shifting a record's LFH offset by `|P|` leaves the
extracted entry unchanged. -/
theorem entryIn_shift (P X : Bytes) (r : CdhRecord) :
    CdhRecord.entryIn (P ++ X) (r.shift P.length) = CdhRecord.entryIn X r := by
  unfold CdhRecord.entryIn CdhRecord.shift
  have h26 : r.lfhOffset + P.length + 26 = P.length + (r.lfhOffset + 26) := by omega
  have h28 : r.lfhOffset + P.length + 28 = P.length + (r.lfhOffset + 28) := by omega
  simp only [h26, h28, readU16_append_add]
  have h30 : r.lfhOffset + P.length + 30 + readU16 X (r.lfhOffset + 26)
      + readU16 X (r.lfhOffset + 28)
      = P.length + (r.lfhOffset + 30 + readU16 X (r.lfhOffset + 26)
        + readU16 X (r.lfhOffset + 28)) := by omega
  rw [h30, drop_append_add]

/-- An entry whose LFH and payload lie inside `base` is unaffected by bytes
appended after `base`. -/
theorem entryIn_extend (base suffix : Bytes) (r : CdhRecord) (h : r.lfhInside base) :
    CdhRecord.entryIn (base ++ suffix) r = CdhRecord.entryIn base r := by
  obtain ⟨h30, hpay⟩ := h
  unfold CdhRecord.entryIn
  rw [readU16_inside_left _ _ _ (by omega), readU16_inside_left _ _ _ (by omega)]
  rw [slice_inside_left _ _ _ _ (by omega)]

/-! ### The EOCD backward scan. -/

theorem findEocdAux_eq_some (data : Bytes) (e : Nat)
    (he : sliceIs data e eocdSig = true) (h1 : 1 ≤ e) :
    ∀ i, e ≤ i → (∀ j, e < j → j ≤ i → sliceIs data j eocdSig = false) →
      findEocdAux data i = some e := by
  intro i
  induction i with
  | zero => intro hei _; omega
  | succ i ih =>
    intro hei hno
    rw [findEocdAux]
    by_cases hcase : e = i + 1
    · subst hcase; rw [he]; simp
    · rw [hno (i + 1) (by omega) (by omega)]
      simp only [Bool.false_eq_true, if_false]
      exact ih (by omega) (fun j hj hj2 => hno j hj (by omega))

theorem findEocd_eq_some (data : Bytes) (e : Nat)
    (he : sliceIs data e eocdSig = true) (h1 : 1 ≤ e) (hlen : e ≤ data.length - 22)
    (hno : ∀ j, e < j → j ≤ data.length - 22 → sliceIs data j eocdSig = false) :
    findEocd data = some e :=
  findEocdAux_eq_some data e he h1 _ hlen hno

theorem sliceIs_append_add (P X pat : Bytes) (k : Nat) :
    sliceIs (P ++ X) (P.length + k) pat = sliceIs X k pat := by
  unfold sliceIs; rw [drop_append_add]

theorem sliceIs_append_ge (P X pat : Bytes) (j : Nat) (h : P.length ≤ j) :
    sliceIs (P ++ X) j pat = sliceIs X (j - P.length) pat := by
  unfold sliceIs
  rw [drop_append_of_len P X j (j - P.length) (by omega)]

/-! ### A well-formed archive: LFH area, central directory, EOCD. -/

/-- `lfhArea ++ central directory ++ EOCD`: the byte layout of a ZIP whose
EOCD-rooted central directory consists of the records `rs`. -/
def zipOf (lfhArea : Bytes) (rs : List CdhRecord) (e0 : EocdRecord) : Bytes :=
  lfhArea ++ (serCd rs ++ e0.ser)

/-- The patched central directory the claim predicts. -/
def shiftCd (rs : List CdhRecord) (adj : Nat) : List CdhRecord :=
  rs.map (CdhRecord.shift · adj)

/-- The patched EOCD the claim predicts. -/
def shiftEocd (e0 : EocdRecord) (adj : Nat) : EocdRecord :=
  { e0 with cdOffset := e0.cdOffset + adj }

theorem ser_shift_length (r : CdhRecord) (adj : Nat) :
    (r.shift adj).ser.length = r.ser.length := by
  simp [CdhRecord.ser, CdhRecord.shift]

theorem serCd_shift_length (rs : List CdhRecord) (adj : Nat) :
    (serCd (shiftCd rs adj)).length = (serCd rs).length := by
  induction rs with
  | nil => rfl
  | cons r rs ih => simp only [serCd, shiftCd, List.map_cons, List.flatten_cons,
      List.length_append] at *; rw [ser_shift_length, ih]

theorem eocd_ser_length (e0 : EocdRecord) (hew : e0.wf) :
    e0.ser.length = 20 + e0.tail.length := by
  simp [EocdRecord.ser, eocdSig, hew.1]; omega

theorem CdhRecord.shift_wf {r : CdhRecord} (adj : Nat) (hw : r.wf)
    (hfit : r.lfhOffset + adj < 2 ^ 32) : (r.shift adj).wf := by
  obtain ⟨h1, h2, h3, h4, h5, h6, h7, h8, h9⟩ := hw
  exact ⟨h1, h2, h3, h4, h5, hfit, h7, h8, h9⟩

section ZipFacts

variable (A : Bytes) (rs : List CdhRecord) (e0 : EocdRecord)

theorem zip_drop_eocd :
    (zipOf A rs e0).drop (A.length + (serCd rs).length) = e0.ser := by
  unfold zipOf
  rw [drop_append_add, drop_append_exact]

theorem zip_sliceIs_eocd :
    sliceIs (zipOf A rs e0) (A.length + (serCd rs).length) eocdSig = true := by
  unfold sliceIs
  rw [zip_drop_eocd]
  refine decide_eq_true ?_
  have h : e0.ser = eocdSig ++ (e0.mid12 ++ (toBytesLE e0.cdOffset 4 ++ e0.tail)) := by
    simp [EocdRecord.ser, List.append_assoc]
  rw [h]
  exact take_append_exact _ _ _ rfl

theorem zip_length (hew : e0.wf) :
    (zipOf A rs e0).length = A.length + (serCd rs).length + 20 + e0.tail.length := by
  simp [zipOf, eocd_ser_length e0 hew]
  omega

theorem zip_read_cdOffset (hew : e0.wf) :
    readU32 (zipOf A rs e0) (A.length + (serCd rs).length + 16) = e0.cdOffset := by
  have h : zipOf A rs e0
      = (A ++ serCd rs ++ eocdSig ++ e0.mid12) ++ (toBytesLE e0.cdOffset 4 ++ e0.tail) := by
    simp [zipOf, EocdRecord.ser, List.append_assoc]
  rw [h, readU32_at_field _ _ _ _ (by simp [eocdSig, hew.1]; omega) hew.2.2]

theorem zip_take_lfhArea : (zipOf A rs e0).take A.length = A := by
  unfold zipOf
  exact take_append_exact _ _ _ rfl

theorem zip_cd_slice :
    ((zipOf A rs e0).drop A.length).take (A.length + (serCd rs).length - A.length)
      = serCd rs := by
  unfold zipOf
  rw [drop_append_exact, Nat.add_sub_cancel_left]
  exact take_append_exact _ _ _ rfl

theorem zip_eocd_head16 (hew : e0.wf) :
    ((zipOf A rs e0).drop (A.length + (serCd rs).length)).take 16
      = eocdSig ++ e0.mid12 := by
  rw [zip_drop_eocd]
  have h : e0.ser = (eocdSig ++ e0.mid12) ++ (toBytesLE e0.cdOffset 4 ++ e0.tail) := by
    simp [EocdRecord.ser, List.append_assoc]
  rw [h]
  exact take_append_exact _ _ _ (by simp [eocdSig, hew.1])

theorem zip_drop_tail (hew : e0.wf) :
    (zipOf A rs e0).drop (A.length + (serCd rs).length + 20) = e0.tail := by
  have h : zipOf A rs e0
      = (A ++ serCd rs ++ eocdSig ++ e0.mid12 ++ toBytesLE e0.cdOffset 4) ++ e0.tail := by
    simp [zipOf, EocdRecord.ser, List.append_assoc]
  rw [h, drop_append_of_len _ _ _ 0 (by simp [eocdSig, hew.1]; omega), List.drop_zero]

end ZipFacts

/-- The first half of the amended polyglot claim, isolated: the rewritten
archive is byte-for-byte `P ++ Z'` with only the offset fields patched. -/
theorem polyglot_eq (lfhArea P : Bytes) (rs : List CdhRecord) (e0 : EocdRecord)
    (hwf : ∀ r ∈ rs, r.wf) (hew : e0.wf)
    (hcd : e0.cdOffset = lfhArea.length)
    (hpos : 1 ≤ lfhArea.length + (serCd rs).length)
    (hin : ∀ r ∈ rs, r.lfhInside lfhArea)
    (hfitP : (zipOf lfhArea rs e0).length + P.length ≤ 2 ^ 32)
    (hnoZ : ∀ j, lfhArea.length + (serCd rs).length < j →
        j ≤ (zipOf lfhArea rs e0).length - 22 →
        sliceIs (zipOf lfhArea rs e0) j eocdSig = false) :
    polyglot (zipOf lfhArea rs e0) P
      = some (P ++ zipOf lfhArea (shiftCd rs P.length) (shiftEocd e0 P.length)) := by
  have hlenZ := zip_length lfhArea rs e0 hew
  have htail := hew.2.1
  have hAfit : lfhArea.length + P.length < 2 ^ 32 := by omega
  have hfit_r : ∀ r ∈ rs, r.lfhOffset + P.length < 2 ^ 32 := by
    intro r hr
    have := (hin r hr).1
    omega
  have hfind : findEocd (zipOf lfhArea rs e0)
      = some (lfhArea.length + (serCd rs).length) :=
    findEocd_eq_some _ _ (zip_sliceIs_eocd lfhArea rs e0) hpos (by omega) hnoZ
  have hread := zip_read_cdOffset lfhArea rs e0 hew
  have hproc := processCd_serCd P.length rs hwf hfit_r
  unfold polyglot
  rw [hfind]
  dsimp only
  rw [hread, hcd, zip_cd_slice, hproc]
  dsimp only
  rw [if_pos (by omega : lfhArea.length + P.length < 2 ^ 32)]
  rw [zip_take_lfhArea, zip_eocd_head16 lfhArea rs e0 hew, zip_drop_tail lfhArea rs e0 hew]
  simp [zipOf, EocdRecord.ser, shiftEocd, shiftCd, hcd, List.append_assoc]

/-- Parsing the original archive yields the entries described by `rs`. -/
theorem parseEntries_zipOf (lfhArea : Bytes) (rs : List CdhRecord) (e0 : EocdRecord)
    (hwf : ∀ r ∈ rs, r.wf) (hew : e0.wf)
    (hcd : e0.cdOffset = lfhArea.length)
    (hpos : 1 ≤ lfhArea.length + (serCd rs).length)
    (hin : ∀ r ∈ rs, r.lfhInside lfhArea)
    (hnoZ : ∀ j, lfhArea.length + (serCd rs).length < j →
        j ≤ (zipOf lfhArea rs e0).length - 22 →
        sliceIs (zipOf lfhArea rs e0) j eocdSig = false) :
    parseEntries (zipOf lfhArea rs e0) = some (rs.map (CdhRecord.entryIn lfhArea)) := by
  have hlenZ := zip_length lfhArea rs e0 hew
  have htail := hew.2.1
  have hfind : findEocd (zipOf lfhArea rs e0)
      = some (lfhArea.length + (serCd rs).length) :=
    findEocd_eq_some _ _ (zip_sliceIs_eocd lfhArea rs e0) hpos (by omega) hnoZ
  unfold parseEntries
  rw [hfind]
  dsimp only
  rw [zip_read_cdOffset lfhArea rs e0 hew, hcd, zip_cd_slice,
    collectEntries_serCd _ rs hwf]
  congr 1
  apply List.map_congr_left
  intro r hr
  rw [show zipOf lfhArea rs e0 = lfhArea ++ (serCd rs ++ e0.ser) from rfl]
  exact entryIn_extend lfhArea _ r (hin r hr)

/-- Parsing the polyglot output yields the same entries. -/
theorem parseEntries_shifted (lfhArea P : Bytes) (rs : List CdhRecord) (e0 : EocdRecord)
    (hwf : ∀ r ∈ rs, r.wf) (hew : e0.wf)
    (hcd : e0.cdOffset = lfhArea.length)
    (hpos : 1 ≤ lfhArea.length + (serCd rs).length)
    (hin : ∀ r ∈ rs, r.lfhInside lfhArea)
    (hfitP : (zipOf lfhArea rs e0).length + P.length ≤ 2 ^ 32)
    (hnoZ2 : ∀ j, lfhArea.length + (serCd rs).length < j →
        j ≤ (zipOf lfhArea rs e0).length - 22 →
        sliceIs (zipOf lfhArea (shiftCd rs P.length) (shiftEocd e0 P.length)) j eocdSig
          = false) :
    parseEntries (P ++ zipOf lfhArea (shiftCd rs P.length) (shiftEocd e0 P.length))
      = some (rs.map (CdhRecord.entryIn lfhArea)) := by
  have hlenZ := zip_length lfhArea rs e0 hew
  have htail := hew.2.1
  have hAfit : lfhArea.length + P.length < 2 ^ 32 := by omega
  have hfit_r : ∀ r ∈ rs, r.lfhOffset + P.length < 2 ^ 32 := by
    intro r hr
    have := (hin r hr).1
    omega
  have hlencd := serCd_shift_length rs P.length
  have hew' : (shiftEocd e0 P.length).wf :=
    ⟨hew.1, hew.2.1, by simp only [shiftEocd]; omega⟩
  have hwf' : ∀ r' ∈ shiftCd rs P.length, r'.wf := by
    intro r' hr'
    obtain ⟨r, hr, rfl⟩ := List.mem_map.mp hr'
    exact CdhRecord.shift_wf _ (hwf r hr) (hfit_r r hr)
  have hlenZ2 : (zipOf lfhArea (shiftCd rs P.length) (shiftEocd e0 P.length)).length
      = (zipOf lfhArea rs e0).length := by
    rw [zip_length _ _ _ hew', zip_length _ _ _ hew, hlencd]
    rfl
  have hsig2 : sliceIs
      (P ++ zipOf lfhArea (shiftCd rs P.length) (shiftEocd e0 P.length))
      (P.length + (lfhArea.length + (serCd rs).length)) eocdSig = true := by
    rw [sliceIs_append_add]
    have h := zip_sliceIs_eocd lfhArea (shiftCd rs P.length) (shiftEocd e0 P.length)
    rwa [hlencd] at h
  have hfind2 : findEocd
      (P ++ zipOf lfhArea (shiftCd rs P.length) (shiftEocd e0 P.length))
      = some (P.length + (lfhArea.length + (serCd rs).length)) := by
    apply findEocd_eq_some _ _ hsig2 (by omega)
    · rw [List.length_append, hlenZ2]; omega
    · intro j hj hjle
      rw [List.length_append, hlenZ2] at hjle
      rw [sliceIs_append_ge _ _ _ j (by omega)]
      exact hnoZ2 (j - P.length) (by omega) (by omega)
  have hread2 : readU32
      (P ++ zipOf lfhArea (shiftCd rs P.length) (shiftEocd e0 P.length))
      (P.length + (lfhArea.length + (serCd rs).length) + 16)
      = e0.cdOffset + P.length := by
    have h1 : P.length + (lfhArea.length + (serCd rs).length) + 16
        = P.length + (lfhArea.length + (serCd rs).length + 16) := by omega
    rw [h1, readU32_append_add]
    have h := zip_read_cdOffset lfhArea (shiftCd rs P.length) (shiftEocd e0 P.length) hew'
    rw [hlencd] at h
    exact h
  unfold parseEntries
  rw [hfind2]
  dsimp only
  rw [hread2]
  have h1 : e0.cdOffset + P.length = P.length + lfhArea.length := by omega
  rw [h1, drop_append_add]
  have h2 : P.length + (lfhArea.length + (serCd rs).length) - (P.length + lfhArea.length)
      = lfhArea.length + (serCd (shiftCd rs P.length)).length - lfhArea.length := by
    rw [hlencd]; omega
  rw [h2, zip_cd_slice lfhArea (shiftCd rs P.length) (shiftEocd e0 P.length),
    collectEntries_serCd _ _ hwf']
  congr 1
  rw [show shiftCd rs P.length = rs.map (CdhRecord.shift · P.length) from rfl,
    List.map_map]
  apply List.map_congr_left
  intro r hr
  show CdhRecord.entryIn
      (P ++ zipOf lfhArea (shiftCd rs P.length) (shiftEocd e0 P.length))
      (r.shift P.length) = CdhRecord.entryIn lfhArea r
  rw [entryIn_shift P (zipOf lfhArea (shiftCd rs P.length) (shiftEocd e0 P.length)) r]
  rw [show zipOf lfhArea (shiftCd rs P.length) (shiftEocd e0 P.length)
      = lfhArea ++ (serCd (shiftCd rs P.length) ++ (shiftEocd e0 P.length).ser) from rfl]
  exact entryIn_extend lfhArea _ r (hin r hr)

/-- **C1** (amended).  For a ZIP laid out as `lfhArea ++ central directory ++
EOCD` whose EOCD sits at a *non-zero* offset (the backward scan of the code
never examines offset 0), is the last EOCD-signature occurrence in both the
original and the patched archive, whose CDH records reference LFHs-plus-payload
inside `lfhArea`, and for a prepend `P` with `|Z| + |P| ≤ 2^32`:
`polyglot` returns exactly `P ++ Z'` where `Z'` is `Z` with each CDH's
bytes-42..46 LFH offset replaced by `old + |P|` and the EOCD's bytes-16..20
cd offset replaced by `cd_offset + |P|`, and the entries (name, mode, payload)
of the result equal those of `Z`. -/
theorem polyglot_prepend_correct_amended
    (lfhArea P : Bytes) (rs : List CdhRecord) (e0 : EocdRecord)
    (hwf : ∀ r ∈ rs, r.wf) (hew : e0.wf)
    (hcd : e0.cdOffset = lfhArea.length)
    (hpos : 1 ≤ lfhArea.length + (serCd rs).length)
    (hin : ∀ r ∈ rs, r.lfhInside lfhArea)
    (hfitP : (zipOf lfhArea rs e0).length + P.length ≤ 2 ^ 32)
    (hnoZ : ∀ j, lfhArea.length + (serCd rs).length < j →
        j ≤ (zipOf lfhArea rs e0).length - 22 →
        sliceIs (zipOf lfhArea rs e0) j eocdSig = false)
    (hnoZ2 : ∀ j, lfhArea.length + (serCd rs).length < j →
        j ≤ (zipOf lfhArea rs e0).length - 22 →
        sliceIs (zipOf lfhArea (shiftCd rs P.length) (shiftEocd e0 P.length)) j eocdSig
          = false) :
    polyglot (zipOf lfhArea rs e0) P
        = some (P ++ zipOf lfhArea (shiftCd rs P.length) (shiftEocd e0 P.length))
      ∧ parseEntries (zipOf lfhArea rs e0) = some (rs.map (CdhRecord.entryIn lfhArea))
      ∧ parseEntries (P ++ zipOf lfhArea (shiftCd rs P.length) (shiftEocd e0 P.length))
          = some (rs.map (CdhRecord.entryIn lfhArea)) :=
  ⟨polyglot_eq lfhArea P rs e0 hwf hew hcd hpos hin hfitP hnoZ,
   parseEntries_zipOf lfhArea rs e0 hwf hew hcd hpos hin hnoZ,
   parseEntries_shifted lfhArea P rs e0 hwf hew hcd hpos hin hfitP hnoZ2⟩

/-- **C1 counterexample.**  The 22-byte empty ZIP is a ZIP byte sequence
containing an EOCD record (at offset 0), yet `polyglot` on it produces no
output at all (the scan `range(len-22, 0, -1)` is empty), not `P ++ Z'`. -/
theorem polyglot_empty_zip_counterexample :
    sliceIs emptyZipBytes 0 eocdSig = true ∧ polyglot emptyZipBytes [65] = none :=
  ⟨rfl, rfl⟩

/-- **C6.**  The claim says the EOCD search examines at most 65535+22 bytes
and finds the EOCD of every file whose EOCD is that close to the end,
including the empty ZIP `polyglot` itself creates (EOCD at offset 0).  In the
code the scan stops at offset 1, so on the freshly created empty ZIP it finds
nothing and `polyglot` aborts with "Could not find End of Central Directory
record". -/
theorem polyglot_eocd_scan_misses_offset_zero :
    emptyZipBytes.length = 22 ∧ sliceIs emptyZipBytes 0 eocdSig = true ∧
    findEocd emptyZipBytes = none ∧ polyglot emptyZipBytes [65] = none :=
  ⟨rfl, rfl, rfl, rfl⟩

/-! Concrete one-entry archive used to witness the amended polyglot claim:
a 32-byte LFH area (LFH for name `a`, 1-byte stored payload `B`),
one CDH record and a bare EOCD. -/

def lfhAreaW : Bytes :=
  [0x50, 0x4B, 0x03, 0x04] ++ List.replicate 10 0
    ++ [0, 0, 0, 0, 1, 0, 0, 0, 1, 0, 0, 0]
    ++ [1, 0] ++ [0, 0] ++ [97] ++ [66]

def cdhW : CdhRecord :=
  { head16 := List.replicate 16 0
    csize := 1
    usize4 := [1, 0, 0, 0]
    disk4 := [0, 0, 0, 0]
    extAttr := 33188 * 65536
    lfhOffset := 0
    name := [97]
    extra := []
    comment := [] }

def eocdW : EocdRecord :=
  { mid12 := [0, 0, 0, 0, 1, 0, 1, 0, 47, 0, 0, 0]
    cdOffset := 32
    tail := [0, 0] }

/-- Witness for the amended polyglot claim at a concrete one-entry archive
and the 2-byte prepend `XY`. -/
theorem polyglot_prepend_correct_witness :
    (∀ r ∈ [cdhW], r.wf) ∧ eocdW.wf ∧
    (polyglot (zipOf lfhAreaW [cdhW] eocdW) [88, 89]
        = some ([88, 89] ++ zipOf lfhAreaW (shiftCd [cdhW] 2) (shiftEocd eocdW 2))
      ∧ parseEntries (zipOf lfhAreaW [cdhW] eocdW)
          = some ([cdhW].map (CdhRecord.entryIn lfhAreaW))
      ∧ parseEntries ([88, 89] ++ zipOf lfhAreaW (shiftCd [cdhW] 2) (shiftEocd eocdW 2))
          = some ([cdhW].map (CdhRecord.entryIn lfhAreaW))) := by
  refine ⟨by decide, by decide, ?_⟩
  have hno : ∀ j, lfhAreaW.length + (serCd [cdhW]).length < j →
      j ≤ (zipOf lfhAreaW [cdhW] eocdW).length - 22 →
      sliceIs (zipOf lfhAreaW [cdhW] eocdW) j eocdSig = false := by
    intro j h1 h2
    rw [show (zipOf lfhAreaW [cdhW] eocdW).length - 22 = 79 from rfl] at h2
    rw [show lfhAreaW.length + (serCd [cdhW]).length = 79 from rfl] at h1
    omega
  have hno2 : ∀ j, lfhAreaW.length + (serCd [cdhW]).length < j →
      j ≤ (zipOf lfhAreaW [cdhW] eocdW).length - 22 →
      sliceIs (zipOf lfhAreaW (shiftCd [cdhW] 2) (shiftEocd eocdW 2)) j eocdSig
        = false := by
    intro j h1 h2
    rw [show (zipOf lfhAreaW [cdhW] eocdW).length - 22 = 79 from rfl] at h2
    rw [show lfhAreaW.length + (serCd [cdhW]).length = 79 from rfl] at h1
    omega
  exact polyglot_prepend_correct_amended lfhAreaW [88, 89] [cdhW] eocdW
    (by decide) (by decide) (by decide) (by decide) (by decide) (by decide) hno hno2

/-! ## Extra fields: CRC-32, the 0x7075 Unicode Path and 0x7875 uid/gid writers
(`src/handlers/zip_handler.py`, `_add_unicode_path_extra_field`,
`_add_uid_gid_extra_field`, `_parse_ux_uid_gid`, `_set_file_permissions`). -/

/-- One bit step of the reflected IEEE CRC-32 (polynomial 0xEDB88320),
the algorithm `binascii.crc32` implements. -/
def crc32Bit (c : Nat) : Nat :=
  if c % 2 = 1 then Nat.xor (c / 2) 0xEDB88320 else c / 2

def crc32Bits : Nat → Nat → Nat
  | c, 0 => c
  | c, n + 1 => crc32Bits (crc32Bit c) n

def crc32Update (c b : Nat) : Nat := crc32Bits (Nat.xor c b) 8

/-- `binascii.crc32(data)`. -/
def crc32 (data : Bytes) : Nat :=
  Nat.xor (data.foldl crc32Update 0xFFFFFFFF) 0xFFFFFFFF

/-- `header ID (2 bytes LE) ++ data size (2 bytes LE) ++ data`: the layout both
extra-field writers emit. -/
def mkExtraField (hid : Nat) (payload : Bytes) : Bytes :=
  toBytesLE hid 2 ++ toBytesLE payload.length 2 ++ payload

/-- The `while pos + 4 <= len(extra_data)` loop shared verbatim by
`_add_unicode_path_extra_field` and `_add_uid_gid_extra_field`: fields with
header id `hid` are skipped, all others are copied; a trailing fragment
shorter than 4 bytes is dropped. -/
def stripFields (hid : Nat) (extra : Bytes) : Bytes :=
  if extra.length < 4 then []
  else
    let dataSize := readU16 extra 2
    if readU16 extra 0 = hid then
      stripFields hid (extra.drop (4 + dataSize))
    else
      extra.take (4 + dataSize) ++ stripFields hid (extra.drop (4 + dataSize))
termination_by extra.length
decreasing_by
  all_goals simp only [List.length_drop]; omega

/-- The type-length-value reading loop of the extra-field parsers
(`_extract_unicode_path` and friends): header id, data size, payload. -/
def parseExtraFields (extra : Bytes) : List (Nat × Bytes) :=
  if extra.length < 4 then []
  else
    (readU16 extra 0, (extra.drop 4).take (readU16 extra 2))
      :: parseExtraFields (extra.drop (4 + readU16 extra 2))
termination_by extra.length
decreasing_by
  simp only [List.length_drop]; omega

/-- `_add_unicode_path_extra_field`: drop prior 0x7075 fields, append
`version=1 ++ crc32_le(main filename bytes) ++ unicode path bytes` (the
override when supplied).  `none` models the `OverflowError` of `to_bytes(2)`
on an oversized field. -/
def addUnicodePathExtraField (extra pathBytes : Bytes) (overridePath : Option Bytes) :
    Option Bytes :=
  let pathUnicode := overridePath.getD pathBytes
  let fieldData := 1 :: (toBytesLE (crc32 pathBytes) 4 ++ pathUnicode)
  if fieldData.length < 2 ^ 16 then
    some (stripFields 0x7075 extra ++ mkExtraField 0x7075 fieldData)
  else none

/-- `(n.bit_length() + 7) // 8 or 1`. -/
def numBytesFor (n : Nat) : Nat :=
  let k := (Nat.size n + 7) / 8
  if k = 0 then 1 else k

/-- `n.to_bytes((n.bit_length()+7)//8 or 1, 'little')[:255]`. -/
def minLEBytes (n : Nat) : Bytes := (toBytesLE n (numBytesFor n)).take 255

/-- The field data `version=1, uid_size, uid_le, gid_size, gid_le` that
`_add_uid_gid_extra_field` builds. -/
def uidGidFieldData (uid gid : Nat) : Bytes :=
  1 :: (minLEBytes uid).length
    :: (minLEBytes uid ++ ((minLEBytes gid).length :: minLEBytes gid))

/-- `_add_uid_gid_extra_field`: drop prior 0x7875 fields, append the new one. -/
def addUidGidExtraField (extra : Bytes) (uid gid : Nat) : Bytes :=
  stripFields 0x7875 extra ++ mkExtraField 0x7875 (uidGidFieldData uid gid)

/-- The uid/gid portion of `_set_file_permissions` (lines 269-278): the field
is written when at least one of uid/gid is supplied, a missing one defaulting
to 0; with both absent the extra data is untouched. -/
def setFilePermissionsExtra (extra : Bytes) (uid gid : Option Nat) : Bytes :=
  if uid = none ∧ gid = none then extra
  else addUidGidExtraField extra (uid.getD 0) (gid.getD 0)

/-- Result dictionary of `_parse_ux_uid_gid` (`none` = key absent). -/
structure UxUidGid where
  version : Option Nat
  uid : Option Nat
  gid : Option Nat
deriving DecidableEq

/-- `_parse_ux_uid_gid(data)` (zip_handler.py lines 127-147). -/
def parseUxUidGid (data : Bytes) : UxUidGid :=
  let version : Option Nat := if 1 ≤ data.length then some (data.getD 0 0) else none
  if 3 ≤ data.length ∧ data.getD 0 0 = 1 then
    let uidSize := data.getD 1 0
    let uid : Option Nat :=
      if 2 + uidSize ≤ data.length then some (fromBytesLE ((data.drop 2).take uidSize))
      else none
    let gid : Option Nat :=
      if 2 + uidSize + 1 ≤ data.length then
        let gidSize := data.getD (2 + uidSize) 0
        if 2 + uidSize + 1 + gidSize ≤ data.length then
          some (fromBytesLE ((data.drop (2 + uidSize + 1)).take gidSize))
        else none
      else none
    ⟨version, uid, gid⟩
  else ⟨version, none, none⟩

/-! ### Well-formed extra data is a concatenation of TLV fields. -/

/-- Serialise a list of (header id, payload) fields. -/
def fieldsBytes (fs : List (Nat × Bytes)) : Bytes :=
  (fs.map fun f => mkExtraField f.1 f.2).flatten

/-- All ids and payload lengths fit their 2-byte wire fields. -/
def FieldsWf (fs : List (Nat × Bytes)) : Prop :=
  ∀ f ∈ fs, f.1 < 2 ^ 16 ∧ f.2.length < 2 ^ 16

instance (fs : List (Nat × Bytes)) : Decidable (FieldsWf fs) := by
  unfold FieldsWf; infer_instance

theorem mkExtraField_length (hid : Nat) (p : Bytes) :
    (mkExtraField hid p).length = 4 + p.length := by
  simp [mkExtraField]; omega

theorem field_read_hid (hid : Nat) (p rest : Bytes) (hh : hid < 2 ^ 16) :
    readU16 (mkExtraField hid p ++ rest) 0 = hid := by
  have h : mkExtraField hid p ++ rest
      = [] ++ (toBytesLE hid 2 ++ (toBytesLE p.length 2 ++ p ++ rest)) := by
    simp [mkExtraField, List.append_assoc]
  rw [h]
  exact readU16_at_field [] _ hid 0 rfl hh

theorem field_read_size (hid : Nat) (p rest : Bytes) (hp : p.length < 2 ^ 16) :
    readU16 (mkExtraField hid p ++ rest) 2 = p.length := by
  have h : mkExtraField hid p ++ rest
      = toBytesLE hid 2 ++ (toBytesLE p.length 2 ++ (p ++ rest)) := by
    simp [mkExtraField, List.append_assoc]
  rw [h, readU16_at_field _ _ _ _ (by simp) hp]

theorem field_payload_slice (hid : Nat) (p rest : Bytes) :
    ((mkExtraField hid p ++ rest).drop 4).take p.length = p := by
  have h : mkExtraField hid p ++ rest
      = (toBytesLE hid 2 ++ toBytesLE p.length 2) ++ (p ++ rest) := by
    simp [mkExtraField, List.append_assoc]
  rw [h]
  exact slice_append _ _ _ _ _ (by simp) rfl

theorem field_drop (hid : Nat) (p rest : Bytes) :
    (mkExtraField hid p ++ rest).drop (4 + p.length) = rest := by
  rw [drop_append_of_len _ _ _ 0 (by rw [mkExtraField_length]; omega)]
  exact List.drop_zero rest

theorem field_take (hid : Nat) (p rest : Bytes) :
    (mkExtraField hid p ++ rest).take (4 + p.length) = mkExtraField hid p :=
  take_append_exact _ _ _ (mkExtraField_length hid p)

theorem field_length_ge (hid : Nat) (p rest : Bytes) :
    ¬ (mkExtraField hid p ++ rest).length < 4 := by
  simp [mkExtraField_length]
  omega

/-- The TLV reader recovers a well-formed field list exactly. -/
theorem parseExtraFields_fieldsBytes (fs : List (Nat × Bytes)) (hwf : FieldsWf fs) :
    parseExtraFields (fieldsBytes fs) = fs := by
  induction fs with
  | nil => rw [parseExtraFields]; rfl
  | cons f fs ih =>
    obtain ⟨hh, hp⟩ := hwf f (by simp)
    have hrest : FieldsWf fs := fun x hx => hwf x (by simp [hx])
    have hcons : fieldsBytes (f :: fs) = mkExtraField f.1 f.2 ++ fieldsBytes fs := by
      simp [fieldsBytes]
    rw [hcons, parseExtraFields, if_neg (field_length_ge f.1 f.2 _)]
    rw [field_read_hid _ _ _ hh, field_read_size _ _ _ hp, field_payload_slice,
      field_drop, ih hrest]

/-- The filter loop drops exactly the fields with the given header id. -/
theorem stripFields_fieldsBytes (hid : Nat) (fs : List (Nat × Bytes)) (hwf : FieldsWf fs) :
    stripFields hid (fieldsBytes fs) = fieldsBytes (fs.filter fun f => f.1 ≠ hid) := by
  induction fs with
  | nil => rw [stripFields]; rfl
  | cons f fs ih =>
    obtain ⟨hh, hp⟩ := hwf f (by simp)
    have hrest : FieldsWf fs := fun x hx => hwf x (by simp [hx])
    have hcons : fieldsBytes (f :: fs) = mkExtraField f.1 f.2 ++ fieldsBytes fs := by
      simp [fieldsBytes]
    rw [hcons, stripFields, if_neg (field_length_ge f.1 f.2 _)]
    dsimp only
    rw [field_read_size _ _ _ hp, field_drop]
    by_cases hfid : f.1 = hid
    · rw [if_pos (by rw [field_read_hid _ _ _ hh]; exact hfid), ih hrest]
      simp [List.filter_cons, hfid]
    · rw [if_neg (by rw [field_read_hid _ _ _ hh]; exact hfid), field_take, ih hrest]
      have : (f :: fs).filter (fun f => f.1 ≠ hid)
          = f :: fs.filter (fun f => f.1 ≠ hid) := by
        simp [List.filter_cons, hfid]
      rw [this]
      simp [fieldsBytes]

theorem numBytesFor_pos (n : Nat) : 1 ≤ numBytesFor n := by
  unfold numBytesFor
  dsimp only
  split <;> omega

theorem numBytesFor_le {n : Nat} (h : n < 2 ^ 2040) : numBytesFor n ≤ 255 := by
  have hs : Nat.size n ≤ 2040 := Nat.size_le.mpr h
  unfold numBytesFor
  dsimp only
  split <;> omega

theorem lt_two_pow_numBytesFor (n : Nat) : n < 2 ^ (8 * numBytesFor n) := by
  have hs : Nat.size n ≤ 8 * numBytesFor n := by
    unfold numBytesFor
    dsimp only
    split <;> omega
  exact lt_of_lt_of_le (Nat.lt_size_self n) (Nat.pow_le_pow_right (by norm_num) hs)

theorem minLEBytes_eq {n : Nat} (h : n < 2 ^ 2040) :
    minLEBytes n = toBytesLE n (numBytesFor n) := by
  unfold minLEBytes
  exact List.take_of_length_le (by rw [toBytesLE_length]; exact numBytesFor_le h)

theorem minLEBytes_length {n : Nat} (h : n < 2 ^ 2040) :
    (minLEBytes n).length = numBytesFor n := by
  rw [minLEBytes_eq h, toBytesLE_length]

theorem fromBytesLE_minLEBytes {n : Nat} (h : n < 2 ^ 2040) :
    fromBytesLE (minLEBytes n) = n := by
  rw [minLEBytes_eq h]
  exact fromBytesLE_toBytesLE_of_lt _ (lt_two_pow_numBytesFor n)

/-- Shared round-trip core: the field data `_add_uid_gid_extra_field` builds
parses back to version 1 and the original uid/gid. -/
theorem uidGid_field_parse (uid gid : Nat) (hu : uid < 2 ^ 2040) (hg : gid < 2 ^ 2040) :
    parseUxUidGid (uidGidFieldData uid gid) = ⟨some 1, some uid, some gid⟩ := by
  have hufrom := fromBytesLE_minLEBytes hu
  have hgfrom := fromBytesLE_minLEBytes hg
  unfold uidGidFieldData parseUxUidGid
  set u := minLEBytes uid with hu_def
  set g := minLEBytes gid with hg_def
  have hlen : (1 :: u.length :: (u ++ (g.length :: g))).length
      = 3 + u.length + g.length := by
    simp; omega
  rw [if_pos (show (3 ≤ (1 :: u.length :: (u ++ (g.length :: g))).length
      ∧ (1 :: u.length :: (u ++ (g.length :: g))).getD 0 0 = 1) from
      ⟨by rw [hlen]; omega, rfl⟩)]
  simp only [UxUidGid.mk.injEq]
  refine ⟨?_, ?_, ?_⟩
  · rw [if_pos (show 1 ≤ (1 :: u.length :: (u ++ (g.length :: g))).length by
      rw [hlen]; omega)]
    rfl
  · rw [show (1 :: u.length :: (u ++ (g.length :: g))).getD 1 0 = u.length from rfl]
    rw [if_pos (show 2 + u.length ≤ (1 :: u.length :: (u ++ (g.length :: g))).length by
      rw [hlen]; omega)]
    rw [show (1 :: u.length :: (u ++ (g.length :: g))).drop 2 = u ++ (g.length :: g)
      from rfl]
    rw [take_append_exact _ _ _ rfl, hufrom]
  · rw [show (1 :: u.length :: (u ++ (g.length :: g))).getD 1 0 = u.length from rfl]
    rw [if_pos (show 2 + u.length + 1 ≤ (1 :: u.length :: (u ++ (g.length :: g))).length
      by rw [hlen]; omega)]
    have hgd : (1 :: u.length :: (u ++ (g.length :: g))).getD (2 + u.length) 0
        = g.length := by
      rw [show 2 + u.length = u.length + 1 + 1 from by omega]
      rw [List.getD_cons_succ, List.getD_cons_succ]
      rw [List.getD_append_right _ _ _ _ le_rfl]
      simp
    rw [hgd, if_pos (show 2 + u.length + 1 + g.length
        ≤ (1 :: u.length :: (u ++ (g.length :: g))).length by rw [hlen]; omega)]
    have hdecomp : (1 : Nat) :: u.length :: (u ++ (g.length :: g))
        = (1 :: u.length :: (u ++ [g.length])) ++ g := by
      simp
    rw [hdecomp, drop_append_of_len _ _ _ 0 (by simp; omega), List.drop_zero,
      List.take_length, hgfrom]

/-- **C7.**  For every uid and gid representable in at most 255 little-endian
bytes (i.e. below `2^2040`), `_parse_ux_uid_gid` applied to the field data
built by `_add_uid_gid_extra_field` recovers version 1 and exactly the
written uid and gid. -/
theorem uid_gid_extra_field_roundtrip (uid gid : Nat)
    (hu : uid < 2 ^ 2040) (hg : gid < 2 ^ 2040) :
    parseUxUidGid (uidGidFieldData uid gid) = ⟨some 1, some uid, some gid⟩ :=
  uidGid_field_parse uid gid hu hg

theorem lt_two_pow_2040_of_lt_65536 {n : Nat} (h : n < 65536) : n < 2 ^ 2040 := by
  have h2 : (65536 : Nat) ≤ 2 ^ 2040 := by
    have h3 : (65536 : Nat) = 2 ^ 16 := by norm_num
    rw [h3]
    exact Nat.pow_le_pow_right (by norm_num) (by norm_num)
  omega

/-- Witness for the uid/gid round-trip at uid 1000, gid 2000. -/
theorem uid_gid_extra_field_roundtrip_witness :
    1000 < 2 ^ 2040 ∧ 2000 < 2 ^ 2040 ∧
    parseUxUidGid (uidGidFieldData 1000 2000) = ⟨some 1, some 1000, some 2000⟩ :=
  ⟨lt_two_pow_2040_of_lt_65536 (by norm_num), lt_two_pow_2040_of_lt_65536 (by norm_num),
   uid_gid_extra_field_roundtrip 1000 2000 (lt_two_pow_2040_of_lt_65536 (by norm_num))
     (lt_two_pow_2040_of_lt_65536 (by norm_num))⟩

/-- **C10.**  In `_set_file_permissions`, the 0x7875 field is written whenever
at least one of uid/gid is supplied (the missing one encoded as 0) and is
omitted only when both are absent. -/
theorem uid_or_gid_alone_still_written (extra : Bytes) (u : Nat) (hu : u < 2 ^ 2040) :
    setFilePermissionsExtra extra none none = extra
    ∧ setFilePermissionsExtra extra (some u) none
        = stripFields 0x7875 extra ++ mkExtraField 0x7875 (uidGidFieldData u 0)
    ∧ parseUxUidGid (uidGidFieldData u 0) = ⟨some 1, some u, some 0⟩
    ∧ setFilePermissionsExtra extra none (some u)
        = stripFields 0x7875 extra ++ mkExtraField 0x7875 (uidGidFieldData 0 u)
    ∧ parseUxUidGid (uidGidFieldData 0 u) = ⟨some 1, some 0, some u⟩ := by
  have h0 : (0 : Nat) < 2 ^ 2040 := pow_pos (by norm_num) 2040
  refine ⟨rfl, ?_, uidGid_field_parse u 0 hu h0, ?_, uidGid_field_parse 0 u h0 hu⟩
  · simp [setFilePermissionsExtra, addUidGidExtraField]
  · simp [setFilePermissionsExtra, addUidGidExtraField]

/-- Witness for C10 at uid 7 and a one-field extra block. -/
theorem uid_or_gid_alone_still_written_witness :
    7 < 2 ^ 2040 ∧
    (setFilePermissionsExtra [117, 120, 1, 0, 5] none none = [117, 120, 1, 0, 5]
    ∧ setFilePermissionsExtra [117, 120, 1, 0, 5] (some 7) none
        = stripFields 0x7875 [117, 120, 1, 0, 5]
          ++ mkExtraField 0x7875 (uidGidFieldData 7 0)
    ∧ parseUxUidGid (uidGidFieldData 7 0) = ⟨some 1, some 7, some 0⟩
    ∧ setFilePermissionsExtra [117, 120, 1, 0, 5] none (some 7)
        = stripFields 0x7875 [117, 120, 1, 0, 5]
          ++ mkExtraField 0x7875 (uidGidFieldData 0 7)
    ∧ parseUxUidGid (uidGidFieldData 0 7) = ⟨some 1, some 0, some 7⟩) :=
  ⟨lt_two_pow_2040_of_lt_65536 (by norm_num),
   uid_or_gid_alone_still_written [117, 120, 1, 0, 5] 7
     (lt_two_pow_2040_of_lt_65536 (by norm_num))⟩

/-- **C2.**  With a unicode path override supplied, the written extra data is
the prior fields minus every 0x7075 field, plus exactly one new 0x7075 field
whose payload is `version 1 ++ crc32_le(main filename bytes) ++ override
bytes` — the CRC covers the main filename, not the override. -/
theorem unicode_path_extra_field_correct (fs : List (Nat × Bytes)) (hwf : FieldsWf fs)
    (fname override : Bytes) (hov : 5 + override.length < 2 ^ 16) :
    addUnicodePathExtraField (fieldsBytes fs) fname (some override)
        = some (fieldsBytes ((fs.filter fun f => f.1 ≠ 0x7075)
            ++ [(0x7075, 1 :: (toBytesLE (crc32 fname) 4 ++ override))]))
      ∧ parseExtraFields (fieldsBytes ((fs.filter fun f => f.1 ≠ 0x7075)
            ++ [(0x7075, 1 :: (toBytesLE (crc32 fname) 4 ++ override))]))
          = (fs.filter fun f => f.1 ≠ 0x7075)
            ++ [(0x7075, 1 :: (toBytesLE (crc32 fname) 4 ++ override))]
      ∧ List.filter (fun f : Nat × Bytes => f.1 = 0x7075)
            ((fs.filter fun f => f.1 ≠ 0x7075)
              ++ [(0x7075, 1 :: (toBytesLE (crc32 fname) 4 ++ override))])
          = [(0x7075, 1 :: (toBytesLE (crc32 fname) 4 ++ override))] := by
  have hnewwf : FieldsWf ((fs.filter fun f => f.1 ≠ 0x7075)
      ++ [(0x7075, 1 :: (toBytesLE (crc32 fname) 4 ++ override))]) := by
    intro f hf
    rcases List.mem_append.mp hf with h | h
    · exact hwf f (List.mem_filter.mp h).1
    · simp at h
      subst h
      refine ⟨by norm_num, ?_⟩
      simp
      omega
  refine ⟨?_, parseExtraFields_fieldsBytes _ hnewwf, ?_⟩
  · unfold addUnicodePathExtraField
    rw [if_pos (by simp; omega)]
    rw [stripFields_fieldsBytes _ _ hwf]
    simp [fieldsBytes]
  · rw [List.filter_append]
    have h1 : (fs.filter fun f => f.1 ≠ 0x7075).filter (fun f => f.1 = 0x7075) = [] := by
      rw [List.filter_eq_nil_iff]
      intro a ha
      have h2 := (List.mem_filter.mp ha).2
      simp at h2 ⊢
      exact h2
    rw [h1]
    simp

/-- Witness for C2: a two-field extra block (one stale 0x7075 field, one
0x5455 field), filename `a`, override `../e`. -/
theorem unicode_path_extra_field_correct_witness :
    FieldsWf [(0x7075, [9, 9]), (0x5455, [1, 2, 3])] ∧
    addUnicodePathExtraField (fieldsBytes [(0x7075, [9, 9]), (0x5455, [1, 2, 3])])
        [97] (some [46, 46, 47, 101])
      = some (fieldsBytes (([(0x7075, [9, 9]), (0x5455, [1, 2, 3])].filter
            fun f => f.1 ≠ 0x7075)
          ++ [(0x7075, 1 :: (toBytesLE (crc32 [97]) 4 ++ [46, 46, 47, 101]))])) := by
  refine ⟨by decide, ?_⟩
  exact (unicode_path_extra_field_correct [(0x7075, [9, 9]), (0x5455, [1, 2, 3])]
    (by decide) [97] [46, 46, 47, 101] (by decide)).1

/-! ## Extraction path sanitisation
(`src/handlers/base_handler.py`, `_sanitize_path`; used by `extract` in
non-vulnerable mode, zip_handler.py lines 1182-1186).  Paths are modelled as
`List Char`; `posixpath.normpath`, `basename` and `os.path.join` are embedded
with their documented POSIX semantics. -/

/-- `path.split('/')` — all separators split, empty components kept. -/
def splitSlash : List Char → List (List Char)
  | [] => [[]]
  | c :: rest =>
    match splitSlash rest with
    | [] => [[]]
    | part :: parts =>
      if c = '/' then [] :: part :: parts else (c :: part) :: parts

/-- `'/'.join(components)`. -/
def joinSlash (comps : List (List Char)) : List Char :=
  List.intercalate ['/'] comps

/-- `os.path.isabs` / `startswith('/')`. -/
def isAbsPath (p : List Char) : Bool := p.take 1 = ['/']

/-- One step of `posixpath.normpath`'s component loop. -/
def normpathStep (initialSlashes : Nat) (acc : List (List Char)) (comp : List Char) :
    List (List Char) :=
  if comp = [] ∨ comp = ['.'] then acc
  else if comp ≠ ['.', '.'] ∨ (initialSlashes = 0 ∧ acc = [])
      ∨ acc.getLast? = some ['.', '.'] then acc ++ [comp]
  else if acc ≠ [] then acc.dropLast
  else acc

/-- `posixpath.normpath`. -/
def normpath (path : List Char) : List Char :=
  if path = [] then ['.']
  else
    let initialSlashes : Nat :=
      if path.take 1 = ['/'] then
        if path.take 2 = ['/', '/'] ∧ ¬ path.take 3 = ['/', '/', '/'] then 2 else 1
      else 0
    let newComps := (splitSlash path).foldl (normpathStep initialSlashes) []
    let result := List.replicate initialSlashes '/' ++ joinSlash newComps
    if result = [] then ['.'] else result

/-- `posixpath.basename`: the part after the last `'/'`. -/
def basenameChars (p : List Char) : List Char :=
  ((splitSlash p).getLast?).getD []

/-- `os.path.join(a, b)` for POSIX. -/
def joinPath (a b : List Char) : List Char :=
  if b.take 1 = ['/'] then b
  else if a = [] ∨ a.getLast? = some '/' then a ++ b
  else a ++ '/' :: b

/-- `os.path.join(*parts)` (the code only reaches it with nonempty `parts`). -/
def joinMany : List (List Char) → List Char
  | [] => []
  | p :: ps => ps.foldl joinPath p

/-- `_sanitize_path(path, output_dir)` (base_handler.py lines 47-76). -/
def sanitizePath (path outputDir : List Char) : List Char :=
  let p1 := normpath path
  let p2 := if isAbsPath p1 then basenameChars p1 else p1
  let parts := (splitSlash p2).filter fun part =>
    ¬ (part = ['.'] ∨ part = [] ∨ part = ['.', '.'])
  let safePath := if parts ≠ [] then joinMany parts else []
  joinPath outputDir safePath

theorem splitSlash_ne_nil (l : List Char) : splitSlash l ≠ [] := by
  cases l with
  | nil => simp [splitSlash]
  | cons c rest =>
    rw [splitSlash]
    cases h : splitSlash rest with
    | nil => simp
    | cons part parts =>
      dsimp only
      split <;> simp

theorem splitSlash_no_slash (l : List Char) : ∀ c ∈ splitSlash l, '/' ∉ c := by
  induction l with
  | nil => simp [splitSlash]
  | cons c rest ih =>
    intro x hx
    rw [splitSlash] at hx
    cases h : splitSlash rest with
    | nil => exact absurd h (splitSlash_ne_nil rest)
    | cons part parts =>
      rw [h] at hx
      dsimp only at hx
      have hpart : '/' ∉ part := ih part (by rw [h]; simp)
      have hparts : ∀ y ∈ parts, '/' ∉ y := fun y hy => ih y (by rw [h]; simp [hy])
      by_cases hc : c = '/'
      · rw [if_pos hc] at hx
        simp only [List.mem_cons] at hx
        rcases hx with h1 | h1 | h1
        · subst h1; simp
        · subst h1; exact hpart
        · exact hparts x h1
      · rw [if_neg hc] at hx
        simp only [List.mem_cons] at hx
        rcases hx with h1 | h1
        · subst h1
          intro hmem
          rcases List.mem_cons.mp hmem with h2 | h2
          · exact hc h2.symm
          · exact hpart h2
        · exact hparts x h1

theorem foldl_joinPath_head (ps : List (List Char)) :
    ∀ p : List Char, p ≠ [] → (∀ c ∈ ps, ¬ c.take 1 = ['/']) →
      (ps.foldl joinPath p).take 1 = p.take 1 ∧ ps.foldl joinPath p ≠ [] := by
  induction ps with
  | nil => intro p hp _; exact ⟨rfl, hp⟩
  | cons q ps ih =>
    intro p hp hq
    rw [List.foldl_cons]
    have hstep : joinPath p q = p ++ ('/' :: q) ∨ joinPath p q = p ++ q := by
      unfold joinPath
      rw [if_neg (by simpa using hq q (by simp))]
      split
      · exact Or.inr rfl
      · exact Or.inl rfl
    have hppq : (joinPath p q).take 1 = p.take 1 ∧ joinPath p q ≠ [] := by
      obtain ⟨c, cs, rfl⟩ := List.exists_cons_of_ne_nil hp
      rcases hstep with h | h <;> rw [h] <;> exact ⟨rfl, by simp⟩
    obtain ⟨h1, h2⟩ := ih (joinPath p q) hppq.2 (fun c hc => hq c (by simp [hc]))
    exact ⟨h1.trans hppq.1, h2⟩

theorem joinPath_take_left (a b : List Char) (hb : ¬ b.take 1 = ['/']) :
    (joinPath a b).take a.length = a := by
  unfold joinPath
  rw [if_neg hb]
  split
  · rw [List.take_append_eq_append_take]
    simp
  · rw [show a ++ '/' :: b = a ++ ('/' :: b) from rfl, List.take_append_eq_append_take]
    simp

theorem sanitizePath_eq (path outputDir : List Char) :
    sanitizePath path outputDir
      = joinPath outputDir (joinMany ((splitSlash (if isAbsPath (normpath path)
          then basenameChars (normpath path) else normpath path)).filter
          (fun part => ¬ (part = ['.'] ∨ part = [] ∨ part = ['.', '.'])))) := by
  unfold sanitizePath
  dsimp only
  by_cases h : (splitSlash (if isAbsPath (normpath path) then
      basenameChars (normpath path) else normpath path)).filter
      (fun part => ¬ (part = ['.'] ∨ part = [] ∨ part = ['.', '.'])) = []
  · rw [h]
    simp [joinMany]
  · rw [if_pos h]

/-- **C3.**  The sanitised extraction path is the output directory joined with
components none of which is `..`, `.`, empty, or contains a separator — so it
lies under the output directory (the output directory is a prefix of the
result); and `../../etc/passwd` maps to `outdir/etc/passwd`. -/
theorem sanitize_path_stays_under_output_dir :
    (∀ path outputDir : List Char, ∃ comps : List (List Char),
        (∀ c ∈ comps, c ≠ [] ∧ c ≠ ['.'] ∧ c ≠ ['.', '.'] ∧ '/' ∉ c)
        ∧ sanitizePath path outputDir = joinPath outputDir (joinMany comps)
        ∧ (sanitizePath path outputDir).take outputDir.length = outputDir)
    ∧ sanitizePath ("../../etc/passwd".toList) ("outdir".toList)
        = "outdir/etc/passwd".toList := by
  constructor
  · intro path outputDir
    have hgood : ∀ c ∈ (splitSlash (if isAbsPath (normpath path) then
        basenameChars (normpath path) else normpath path)).filter
        (fun part => ¬ (part = ['.'] ∨ part = [] ∨ part = ['.', '.'])),
        c ≠ [] ∧ c ≠ ['.'] ∧ c ≠ ['.', '.'] ∧ '/' ∉ c := by
      intro c hc
      have h1 := (List.mem_filter.mp hc).1
      have h2 := (List.mem_filter.mp hc).2
      simp only [decide_not, Bool.not_eq_eq_eq_not, Bool.not_true,
        decide_eq_false_iff_not] at h2
      push_neg at h2
      exact ⟨h2.2.1, h2.1, h2.2.2, splitSlash_no_slash _ c h1⟩
    have heq := sanitizePath_eq path outputDir
    have hsafe : ¬ (joinMany ((splitSlash (if isAbsPath (normpath path) then
        basenameChars (normpath path) else normpath path)).filter
        (fun part => ¬ (part = ['.'] ∨ part = [] ∨ part = ['.', '.'])))).take 1
        = ['/'] := by
      cases hq : (splitSlash (if isAbsPath (normpath path) then
          basenameChars (normpath path) else normpath path)).filter
          (fun part => ¬ (part = ['.'] ∨ part = [] ∨ part = ['.', '.'])) with
      | nil => simp [joinMany]
      | cons p ps =>
        have hp_ne : p ≠ [] := (hgood p (by rw [hq]; simp)).1
        have hnos : '/' ∉ p := (hgood p (by rw [hq]; simp)).2.2.2
        have hps : ∀ c ∈ ps, ¬ c.take 1 = ['/'] := by
          intro c hc
          have h := hgood c (by rw [hq]; simp [hc])
          obtain ⟨c0, cs, rfl⟩ := List.exists_cons_of_ne_nil h.1
          have hc0 : c0 ≠ '/' := fun hh => h.2.2.2 (by simp [hh])
          simp [hc0]
        have hfold := foldl_joinPath_head ps p hp_ne hps
        rw [show joinMany (p :: ps) = ps.foldl joinPath p from rfl, hfold.1]
        obtain ⟨c0, cs, rfl⟩ := List.exists_cons_of_ne_nil hp_ne
        have hc0 : c0 ≠ '/' := fun hh => hnos (by simp [hh])
        simp [hc0]
    refine ⟨_, hgood, heq, ?_⟩
    rw [heq]
    exact joinPath_take_left outputDir _ hsafe
  · decide

/-! ## The extended ZIP reader's name list
(`src/handlers/extended_zipfile.py`, `namelist` lines 95-105 and
`_build_extended_infolist` lines 424-458).  The stdlib `zipfile` reader the
class inherits from and the raw signature scan feed these functions; their
outputs — the standard info list and the parsed LFH/CDH lists — enter here as
parameters. -/

/-- A standard-central-directory entry as `zipfile.infolist()` reports it. -/
structure StdZipInfo where
  filename : String
  headerOffset : Nat

/-- A Local File Header found by the signature scan. -/
structure ScanLfh where
  offset : Nat
  filename : String

/-- A Central Directory Header found by the signature scan. -/
structure ScanCdh where
  offset : Nat
  lfhOffset : Nat
  filename : String

/-- The fields of `ExtendedZipInfo` that `namelist` consults. -/
structure ExtEntry where
  filename : String
  isOrphanedLfh : Bool
  isOrphanedCdh : Bool

/-- `_build_extended_infolist`: one extended entry per standard entry (never
orphaned), then — only in orphaned mode — one per scanned LFH whose offset no
standard entry references, marked orphaned, with `is_orphaned_cdh` cleared
when some scanned CDH points at it. -/
def buildExtendedInfolist (stdInfos : List StdZipInfo) (parsedLfhs : List ScanLfh)
    (parsedCdhs : List ScanCdh) (orphanedMode : Bool) : List ExtEntry :=
  let stdOffsets := stdInfos.map (·.headerOffset)
  let stdEntries : List ExtEntry := stdInfos.map fun i => ⟨i.filename, false, false⟩
  if orphanedMode then
    stdEntries ++ (parsedLfhs.filter fun l => l.offset ∉ stdOffsets).map
      fun l => ⟨l.filename, true, (parsedCdhs.find? fun c => c.lfhOffset = l.offset).isNone⟩
  else stdEntries

/-- `namelist`: standard names first, then each orphaned entry's name not
already present. -/
def namelistExt (stdNames : List String) (extList : List ExtEntry) : List String :=
  extList.foldl (fun names e =>
    if e.isOrphanedLfh ∧ e.filename ∉ names then names ++ [e.filename] else names)
    stdNames

/-- The composite `ExtendedZipFile(...).namelist()`. -/
def extNamelist (stdInfos : List StdZipInfo) (parsedLfhs : List ScanLfh)
    (parsedCdhs : List ScanCdh) (orphanedMode : Bool) : List String :=
  namelistExt (stdInfos.map (·.filename))
    (buildExtendedInfolist stdInfos parsedLfhs parsedCdhs orphanedMode)

theorem namelistExt_no_orphans (es : List ExtEntry) :
    ∀ ns, (∀ e ∈ es, e.isOrphanedLfh = false) → namelistExt ns es = ns := by
  induction es with
  | nil => intro ns _; rfl
  | cons e es ih =>
    intro ns h
    have he := h e (by simp)
    unfold namelistExt
    rw [List.foldl_cons]
    simp only [he]
    simpa [namelistExt] using ih ns (fun x hx => h x (by simp [hx]))

theorem namelistExt_mem (es : List ExtEntry) :
    ∀ ns x, x ∈ ns → x ∈ namelistExt ns es := by
  induction es with
  | nil => intro ns x hx; exact hx
  | cons e es ih =>
    intro ns x hx
    unfold namelistExt
    rw [List.foldl_cons]
    refine ih _ x ?_
    split
    · exact List.mem_append_left _ hx
    · exact hx

theorem namelistExt_toFinset (es : List ExtEntry) :
    ∀ ns, (∀ e ∈ es, e.isOrphanedLfh = true) →
      (namelistExt ns es).toFinset = ns.toFinset ∪ (es.map (·.filename)).toFinset := by
  induction es with
  | nil => intro ns _; simp [namelistExt]
  | cons e es ih =>
    intro ns h
    have he := h e (by simp)
    unfold namelistExt
    rw [List.foldl_cons]
    simp only [he, true_and]
    have hstep : ∀ ns' : List String,
        (if e.filename ∉ ns' then ns' ++ [e.filename] else ns').toFinset
          = ns'.toFinset ∪ {e.filename} := by
      intro ns'
      split
      · simp [List.toFinset_append]
      · next hmem =>
        rw [not_not] at hmem
        rw [Finset.union_comm, Finset.union_eq_right.mpr]
        simpa using hmem
    have hrec := ih (if e.filename ∉ ns then ns ++ [e.filename] else ns)
      (fun x hx => h x (by simp [hx]))
    simp only [namelistExt] at hrec
    rw [hrec, hstep]
    rw [List.map_cons, List.toFinset_cons, Finset.insert_eq]
    rw [Finset.union_assoc]

/-- **C4.**  `namelist()` equals the standard central-directory names when
orphan mode is off; with orphan mode on it is a superset of them and equals,
as a set, the standard names union the names of scanned LFHs not referenced
by the standard central directory. -/
theorem extended_namelist_orphans (stdInfos : List StdZipInfo)
    (parsedLfhs : List ScanLfh) (parsedCdhs : List ScanCdh) :
    extNamelist stdInfos parsedLfhs parsedCdhs false = stdInfos.map (·.filename)
    ∧ (∀ x ∈ stdInfos.map (·.filename),
        x ∈ extNamelist stdInfos parsedLfhs parsedCdhs true)
    ∧ (extNamelist stdInfos parsedLfhs parsedCdhs true).toFinset
        = (stdInfos.map (·.filename)).toFinset
          ∪ ((parsedLfhs.filter fun l =>
              l.offset ∉ stdInfos.map (·.headerOffset)).map (·.filename)).toFinset := by
  have hstdflags : ∀ e ∈ stdInfos.map (fun i => (⟨i.filename, false, false⟩ : ExtEntry)),
      e.isOrphanedLfh = false := by
    intro e he
    obtain ⟨i, _, rfl⟩ := List.mem_map.mp he
    rfl
  refine ⟨?_, ?_, ?_⟩
  · unfold extNamelist buildExtendedInfolist
    dsimp only
    exact namelistExt_no_orphans _ _ hstdflags
  · intro x hx
    unfold extNamelist
    exact namelistExt_mem _ _ x hx
  · unfold extNamelist buildExtendedInfolist
    dsimp only
    rw [if_pos rfl]
    unfold namelistExt
    rw [List.foldl_append]
    have hstd : (stdInfos.map (fun i => (⟨i.filename, false, false⟩ : ExtEntry))).foldl
        (fun names e =>
          if e.isOrphanedLfh ∧ e.filename ∉ names then names ++ [e.filename] else names)
        (stdInfos.map (·.filename)) = stdInfos.map (·.filename) := by
      have := namelistExt_no_orphans
        (stdInfos.map (fun i => (⟨i.filename, false, false⟩ : ExtEntry)))
        (stdInfos.map (·.filename)) hstdflags
      simpa [namelistExt] using this
    rw [hstd]
    have horph : ∀ e ∈ (parsedLfhs.filter fun l =>
        l.offset ∉ stdInfos.map (·.headerOffset)).map
        (fun l => (⟨l.filename, true,
          (parsedCdhs.find? fun c => c.lfhOffset = l.offset).isNone⟩ : ExtEntry)),
        e.isOrphanedLfh = true := by
      intro e he
      obtain ⟨l, _, rfl⟩ := List.mem_map.mp he
      rfl
    have := namelistExt_toFinset _ (stdInfos.map (·.filename)) horph
    simp only [namelistExt] at this
    rw [this, List.map_map]
    rfl

/-! ## Remove semantics
(`src/handlers/zip_handler.py`, `remove` lines 854-906;
`src/handlers/tar_handler.py`, `remove` lines 569-624). -/

/-- `path.rstrip('/')`. -/
def rstripSlashes (s : String) : String :=
  String.mk ((s.data.reverse.dropWhile fun c => c = '/').reverse)

/-- `name.startswith(p)`. -/
def startsWithStr (name p : String) : Bool :=
  List.isPrefixOf p.data name.data

/-- The ZIP match condition (line 875): exact name, or recursive with empty
path (remove root), or recursive and the name starts with
`path.rstrip('/') + '/'`. -/
def zipMatchPred (path : String) (recursive : Bool) (name : String) : Bool :=
  name == path || (recursive && path == "")
    || (recursive && startsWithStr name (rstripSlashes path ++ "/"))

/-- The TAR match condition (line 588): identical but with no empty-path
special case. -/
def tarMatchPred (path : String) (recursive : Bool) (name : String) : Bool :=
  name == path || (recursive && startsWithStr name (rstripSlashes path ++ "/"))

/-- Both `remove` implementations: collect `paths_to_remove` by the match
predicate; report EntryNotFound (`none`, original file untouched) when empty;
otherwise keep exactly the entries whose name is not in the removed list. -/
def removeByPred (pred : String → Bool) (entries : List String) : Option (List String) :=
  let toRemove := entries.filter pred
  if toRemove.isEmpty then none
  else some (entries.filter fun e => !(toRemove.contains e))

def zipPathsToRemove (entries : List String) (path : String) (recursive : Bool) :
    List String :=
  entries.filter (zipMatchPred path recursive)

/-- `ZipHandler.remove` on the entry-name list. -/
def zipRemove (entries : List String) (path : String) (recursive : Bool) :
    Option (List String) :=
  removeByPred (zipMatchPred path recursive) entries

/-- `TarHandler.remove` on the member-name list. -/
def tarRemove (entries : List String) (path : String) (recursive : Bool) :
    Option (List String) :=
  removeByPred (tarMatchPred path recursive) entries

/-- **C5** (amended).  Recursive remove deletes exactly the entries whose name
equals the path, or the path is empty, or whose name starts with
`path.rstrip('/') + '/'`; non-recursive remove matches only the exact name.
In the archive `a/, a/b, a/c/d, z`: `remove a` deletes the first three and
leaves `z`, but `remove a --recursive 0` matches nothing — no entry is named
exactly `a` (the directory entry is `a/`) — so it reports EntryNotFound and
deletes nothing. -/
theorem remove_match_characterization :
    (∀ (entries : List String) (path e : String),
        e ∈ zipPathsToRemove entries path true
          ↔ e ∈ entries ∧ (e = path ∨ path = ""
              ∨ startsWithStr e (rstripSlashes path ++ "/") = true))
    ∧ (∀ (entries : List String) (path e : String),
        e ∈ zipPathsToRemove entries path false ↔ e ∈ entries ∧ e = path)
    ∧ zipRemove ["a/", "a/b", "a/c/d", "z"] "a" true = some ["z"]
    ∧ zipRemove ["a/", "a/b", "a/c/d", "z"] "a" false = none := by
  refine ⟨?_, ?_, by decide, by decide⟩
  · intro entries path e
    unfold zipPathsToRemove
    rw [List.mem_filter]
    unfold zipMatchPred
    simp
    intro _
    tauto
  · intro entries path e
    unfold zipPathsToRemove
    rw [List.mem_filter]
    unfold zipMatchPred
    simp

/-- **C5 counterexample.**  The claim's non-recursive example asserts
`remove a --recursive 0` removes the `a/` directory entry; in the code the
match list is empty (no entry equals `a`), so remove errors out and removes
nothing. -/
theorem remove_nonrecursive_example_counterexample :
    zipPathsToRemove ["a/", "a/b", "a/c/d", "z"] "a" false = []
    ∧ zipRemove ["a/", "a/b", "a/c/d", "z"] "a" false = none := by
  refine ⟨by decide, by decide⟩

theorem removeByPred_not_found (pred : String → Bool) (entries : List String)
    (h : entries.filter pred = []) : removeByPred pred entries = none := by
  unfold removeByPred
  rw [h]
  rfl

theorem removeByPred_idem (pred : String → Bool) (entries entries' : List String)
    (h : removeByPred pred entries = some entries') :
    removeByPred pred entries' = none := by
  unfold removeByPred at h
  by_cases hne : (entries.filter pred).isEmpty
  · rw [if_pos hne] at h
    exact absurd h (by simp)
  · rw [if_neg hne] at h
    have hkeep : entries' = entries.filter fun e => !((entries.filter pred).contains e) :=
      (Option.some.injEq _ _ ▸ h).symm
    apply removeByPred_not_found
    rw [List.filter_eq_nil_iff]
    intro e he
    rw [hkeep] at he
    have h1 := (List.mem_filter.mp he).1
    have h2 := (List.mem_filter.mp he).2
    simp only [Bool.not_eq_eq_eq_not, Bool.not_true] at h2
    intro hpred
    have hmem : e ∈ entries.filter pred := List.mem_filter.mpr ⟨h1, hpred⟩
    have hcontains : (entries.filter pred).contains e = true :=
      List.elem_eq_true_of_mem hmem
    rw [hcontains] at h2
    cases h2

/-- **C8.**  Remove with a path matching nothing reports EntryNotFound and
(returning before any write) leaves the archive unchanged; and after a
successful remove, repeating the same remove matches nothing — for both the
ZIP and the TAR handler. -/
theorem remove_idempotent (entries zkept tkept : List String) (path : String)
    (r : Bool)
    (hz : zipRemove entries path r = some zkept)
    (ht : tarRemove entries path r = some tkept) :
    zipRemove zkept path r = none ∧ tarRemove tkept path r = none :=
  ⟨removeByPred_idem _ _ _ hz, removeByPred_idem _ _ _ ht⟩

/-- Witness for C8: removing `a` recursively from `a/, a/b, z`, twice. -/
theorem remove_idempotent_witness :
    zipRemove ["a/", "a/b", "z"] "a" true = some ["z"]
    ∧ tarRemove ["a", "a/b", "z"] "a" true = some ["z"]
    ∧ zipRemove ["z"] "a" true = none ∧ tarRemove ["z"] "a" true = none := by
  refine ⟨by decide, by decide, ?_, ?_⟩
  · exact (remove_idempotent ["a/", "a/b", "z"] ["z"] ["z"] "a" true
      (by decide) (by decide)).1
  · exact (remove_idempotent ["a/", "a/b", "z"] ["z"] ["z"] "a" true
      (by decide) (by decide)).2

/-! ## Display naming
(`src/handlers/extended_zipfile.py`, `get_display_name` lines 566-591).
The three name sources are `Option String` (`none` = Python `None`); Python
truthiness makes `None` and the empty string both falsy. -/

def pyTruthy : Option String → Bool
  | none => false
  | some v => v != ""

/-- The annotated `parts` list the code builds first: each truthy name tagged
with its source. -/
def displayParts (u c l : Option String) : List String :=
  (if pyTruthy u then [u.getD "" ++ " (U)"] else [])
    ++ ((if pyTruthy c then [c.getD "" ++ " (C)"] else [])
    ++ (if pyTruthy l then [l.getD "" ++ " (L)"] else []))

/-- `get_display_name`.  The two collapse branches replace `parts` by the
single raw name (`[unicode_name]` / `[cdh_name]`); in the second branch that
name can be Python `None`, and `' '.join([None])` raises `TypeError` —
modelled as `none`.  Empty `parts` falls back to `extended_info.filename`. -/
def getDisplayName (u c l : Option String) (fallback : String) : Option String :=
  if pyTruthy u then
    if u == c && u == l then some (u.getD "")
    else if (displayParts u c l).isEmpty then some fallback
    else some (String.intercalate " " (displayParts u c l))
  else
    if c == l then
      match c with
      | some v => some v
      | none => none
    else if (displayParts u c l).isEmpty then some fallback
    else some (String.intercalate " " (displayParts u c l))

/-- **C9 counterexample.**  With no unicode path and equal CDH/LFH names the
code returns the single unannotated name, not the `(C) (L)`-annotated pair
the claim asserts for every case without a triple unicode agreement. -/
theorem display_name_equal_names_counterexample :
    getDisplayName none (some "a.txt") (some "a.txt") "fb" = some "a.txt"
    ∧ getDisplayName none (some "a.txt") (some "a.txt") "fb"
        ≠ some "a.txt (C) a.txt (L)" := by
  refine ⟨by decide, by decide⟩

/-- **C9** (amended).  For names that are either absent or nonempty:
the unicode path alone is returned when present and equal to both other
names; with no unicode path and equal present CDH/LFH names the single name
is returned unannotated (and all-absent names crash the join); in every other
case each present name is returned annotated with its source tag. -/
theorem display_name_amended (u c l : Option String) (fallback : String)
    (hu : ∀ s, u = some s → s ≠ "") (hc : ∀ s, c = some s → s ≠ "")
    (hl : ∀ s, l = some s → s ≠ "") :
    getDisplayName u c l fallback =
      if u.isSome ∧ u = c ∧ u = l then u
      else if u = none ∧ c.isSome ∧ c = l then c
      else if u = none ∧ c = none ∧ l = none then none
      else some (String.intercalate " " (displayParts u c l)) := by
  rcases u with _ | us
  · rcases c with _ | cs
    · rcases l with _ | ls
      · simp [getDisplayName, pyTruthy]
      · have hls := hl ls rfl
        simp [getDisplayName, pyTruthy, displayParts, bne_iff_ne, hls]
    · have hcs := hc cs rfl
      rcases l with _ | ls
      · simp [getDisplayName, pyTruthy, displayParts, bne_iff_ne, hcs]
      · have hls := hl ls rfl
        by_cases hcl : cs = ls
        · subst hcl
          simp [getDisplayName, pyTruthy]
        · simp [getDisplayName, pyTruthy, displayParts, bne_iff_ne, hcs, hls, hcl]
  · have hus := hu us rfl
    have htruthy : pyTruthy (some us) = true := by simp [pyTruthy, bne_iff_ne, hus]
    by_cases hcase : c = some us ∧ l = some us
    · obtain ⟨rfl, rfl⟩ := hcase
      simp [getDisplayName, htruthy]
    · have hbe : ((some us == c) && (some us == l)) = false := by
        simp only [Bool.and_eq_false_iff, beq_eq_false_iff_ne, ne_eq]
        by_cases h1 : some us = c
        · exact Or.inr fun hh => hcase ⟨h1.symm, hh.symm⟩
        · exact Or.inl h1
      have hr1 : ¬((some us : Option String).isSome ∧ some us = c ∧ some us = l) := by
        rintro ⟨-, h1, h2⟩
        exact hcase ⟨h1.symm, h2.symm⟩
      have hne : (displayParts (some us) c l).isEmpty = false := by
        simp [displayParts, htruthy]
      simp only [getDisplayName, htruthy, if_true, hbe, hne]
      rw [if_neg hr1, if_neg (by simp), if_neg (by simp)]
      simp

/-- Witness for the amended display-name claim: unicode `u` disagreeing with
CDH/LFH names `x` yields the fully annotated display string. -/
theorem display_name_amended_witness :
    (∀ s : String, (some "u" : Option String) = some s → s ≠ "") ∧
    getDisplayName (some "u") (some "x") (some "x") "fb" =
      (if (some "u" : Option String).isSome ∧ (some "u" : Option String) = some "x"
          ∧ (some "u" : Option String) = some "x" then some "u"
      else if (some "u" : Option String) = none ∧ (some "x" : Option String).isSome
          ∧ (some "x" : Option String) = some "x" then some "x"
      else if (some "u" : Option String) = none ∧ (some "x" : Option String) = none
          ∧ (some "x" : Option String) = none then none
      else some (String.intercalate " " (displayParts (some "u") (some "x") (some "x")))) :=
  ⟨fun s hs => by injection hs with h; subst h; decide,
   display_name_amended (some "u") (some "x") (some "x") "fb"
     (fun s hs => by injection hs with h; subst h; decide)
     (fun s hs => by injection hs with h; subst h; decide)
     (fun s hs => by injection hs with h; subst h; decide)⟩

/-- Witness for the sanitiser claim at the path-traversal example. -/
theorem sanitize_path_stays_under_output_dir_witness :
    sanitizePath ("../../etc/passwd".toList) ("outdir".toList)
      = "outdir/etc/passwd".toList :=
  sanitize_path_stays_under_output_dir.2

/-- Witness for the namelist claim: one standard entry, one orphaned LFH. -/
theorem extended_namelist_orphans_witness :
    extNamelist [⟨"normal.txt", 0⟩] [⟨0, "normal.txt"⟩, ⟨50, "orphan.txt"⟩] [] false
      = ["normal.txt"]
    ∧ "normal.txt"
        ∈ extNamelist [⟨"normal.txt", 0⟩] [⟨0, "normal.txt"⟩, ⟨50, "orphan.txt"⟩] [] true :=
  ⟨(extended_namelist_orphans [⟨"normal.txt", 0⟩]
      [⟨0, "normal.txt"⟩, ⟨50, "orphan.txt"⟩] []).1,
   (extended_namelist_orphans [⟨"normal.txt", 0⟩]
      [⟨0, "normal.txt"⟩, ⟨50, "orphan.txt"⟩] []).2.1 "normal.txt" (by decide)⟩

/-- Witness for the remove-match claim at the scenario archive. -/
theorem remove_match_characterization_witness :
    zipRemove ["a/", "a/b", "a/c/d", "z"] "a" true = some ["z"]
    ∧ ("a/" ∈ zipPathsToRemove ["a/", "a/b", "a/c/d", "z"] "a" true
        ↔ "a/" ∈ (["a/", "a/b", "a/c/d", "z"] : List String)
          ∧ ("a/" = "a" ∨ "a" = ""
            ∨ startsWithStr "a/" (rstripSlashes "a" ++ "/") = true)) :=
  ⟨remove_match_characterization.2.2.1,
   remove_match_characterization.1 ["a/", "a/b", "a/c/d", "z"] "a" "a/"⟩

end ArchiveAlchemist
